import Mathlib

/-!
Verification development for the `vencord-installer-gui` auxiliary scripts:
`scripts/version_bump.py` (a local version-bump utility) and
`updater-test/server.py` (a no-cache static test server).

Text is modelled as `List Char`.  The Python `json` module calls used by the
script (`json.loads`, `json.dumps(..., indent=2)`, `json.dumps` on strings)
are modelled faithfully below: JSON values are the `JVal` type (numbers are
modelled as integers; floating-point literals are outside the model, the
parser rejects them), `dumps` reproduces CPython's two-space-indent,
`ensure_ascii` output format, and `loads` is a fuel-indexed recursive-descent
parser matching CPython's strict decoder on scalar-only strings.
-/

/-- Whitespace as recognised by Python's `str.strip` / `str.lstrip` and by
`\s` in a unicode regex: ASCII whitespace, the C1 separators, and the
Unicode space characters. -/
def isPySpace (c : Char) : Bool :=
  (0x9 ≤ c.toNat && c.toNat ≤ 0xd) || (0x1c ≤ c.toNat && c.toNat ≤ 0x1f) ||
  c.toNat = 0x20 || c.toNat = 0x85 || c.toNat = 0xa0 || c.toNat = 0x1680 ||
  (0x2000 ≤ c.toNat && c.toNat ≤ 0x200a) || c.toNat = 0x2028 ||
  c.toNat = 0x2029 || c.toNat = 0x202f || c.toNat = 0x205f || c.toNat = 0x3000

/-- Python `str.lstrip()`. -/
def pyLstrip (s : List Char) : List Char := s.dropWhile isPySpace

/-- Python `str.strip()`. -/
def pyStrip (s : List Char) : List Char := (s.dropWhile isPySpace).rdropWhile isPySpace

/-- Whitespace as skipped by Python's JSON decoder: exactly `' '`, `'\t'`,
`'\n'`, `'\r'`. -/
def isJsonWs (c : Char) : Bool :=
  c.toNat = 32 || c.toNat = 9 || c.toNat = 10 || c.toNat = 13

/-- Skip JSON whitespace. -/
def skipWs (s : List Char) : List Char := s.dropWhile isJsonWs

/-- The decimal digit character for `n` (meaningful for `n < 10`). -/
def digitChar (n : Nat) : Char := Char.ofNat (48 + n)

/-- Fuelled accumulator loop printing the decimal digits of `n`.  The fuel is
only a termination device; `n + 1` units always suffice. -/
def natCharsAux : Nat → Nat → List Char → List Char
  | 0, _, acc => acc
  | fuel + 1, n, acc =>
    if n < 10 then digitChar n :: acc
    else natCharsAux fuel (n / 10) (digitChar (n % 10) :: acc)

/-- Decimal rendering of a natural number, as Python's `str` / `repr`. -/
def natChars (n : Nat) : List Char := natCharsAux (n + 1) n []

/-- Decimal rendering of an integer, as Python's `json.dumps` renders `int`. -/
def intChars (i : Int) : List Char :=
  if i < 0 then '-' :: natChars i.natAbs else natChars i.natAbs

/-- Lower-case hexadecimal digit for `n` (meaningful for `n < 16`), as used by
Python's `'\u%04x'` escapes. -/
def hexDig (n : Nat) : Char :=
  if n < 10 then Char.ofNat (48 + n) else Char.ofNat (87 + n)

/-- The four lower-case hex digits of `n % 0x10000`, most significant first. -/
def hex4 (n : Nat) : List Char :=
  [hexDig (n / 4096 % 16), hexDig (n / 256 % 16), hexDig (n / 16 % 16), hexDig (n % 16)]

/-- Numeric value of a hexadecimal digit character (either case), as accepted
by the decoder of `\uXXXX` escapes. -/
def hexVal (c : Char) : Option Nat :=
  if 48 ≤ c.toNat ∧ c.toNat ≤ 57 then some (c.toNat - 48)
  else if 97 ≤ c.toNat ∧ c.toNat ≤ 102 then some (c.toNat - 87)
  else if 65 ≤ c.toNat ∧ c.toNat ≤ 70 then some (c.toNat - 55)
  else none

/-- Value of four hex digit characters, most significant first. -/
def hexQuad (a b c d : Char) : Option Nat := do
  let x ← hexVal a
  let y ← hexVal b
  let z ← hexVal c
  let w ← hexVal d
  pure (x * 4096 + y * 256 + z * 16 + w)

/-- CPython's `ensure_ascii` escape of a single character inside a JSON string
literal (`json.encoder.py_encode_basestring_ascii`): named escapes for the
characters in `ESCAPE_DCT`, `\u00xx` for other control characters, the
character itself for printable ASCII, `\uxxxx` for other BMP characters and a
surrogate pair for astral characters. -/
def escChar (c : Char) : List Char :=
  if c = '"' then ['\\', '"']
  else if c = '\\' then ['\\', '\\']
  else if c = '\n' then ['\\', 'n']
  else if c = '\r' then ['\\', 'r']
  else if c = '\t' then ['\\', 't']
  else if c.toNat = 8 then ['\\', 'b']
  else if c.toNat = 12 then ['\\', 'f']
  else if 0x20 ≤ c.toNat ∧ c.toNat ≤ 0x7e then [c]
  else if c.toNat < 0x10000 then '\\' :: 'u' :: hex4 c.toNat
  else
    '\\' :: 'u' :: hex4 (0xd800 + (c.toNat - 0x10000) / 0x400) ++
      ('\\' :: 'u' :: hex4 (0xdc00 + (c.toNat - 0x10000) % 0x400))

/-- Escape every character of a string body. -/
def escSeq : List Char → List Char
  | [] => []
  | c :: cs => escChar c ++ escSeq cs

/-- A JSON string literal as emitted by `json.dumps` with `ensure_ascii`. -/
def strLit (s : List Char) : List Char := '"' :: (escSeq s ++ ['"'])

mutual
/-- JSON values, as produced by `json.loads`.  Object members keep insertion
order, matching CPython dicts; numbers are integers (the script's inputs
contain no floats and the model's parser rejects them). -/
inductive JVal : Type where
  | null : JVal
  | boolean : Bool → JVal
  | num : Int → JVal
  | str : List Char → JVal
  | arr : JItems → JVal
  | obj : JMembers → JVal

/-- A list of JSON array elements. -/
inductive JItems : Type where
  | nil : JItems
  | cons : JVal → JItems → JItems

/-- An ordered list of JSON object members. -/
inductive JMembers : Type where
  | nil : JMembers
  | cons : List Char → JVal → JMembers → JMembers
end

deriving instance DecidableEq for JVal, JItems, JMembers

/-- A run of `n` space characters. -/
def nSpaces (n : Nat) : List Char := List.replicate n ' '

mutual
/-- CPython's `json.dumps(v, indent=2)` rendering of a value whose enclosing
indentation is `ind` spaces. -/
def dumpVal (ind : Nat) : JVal → List Char
  | .null => ['n', 'u', 'l', 'l']
  | .boolean true => ['t', 'r', 'u', 'e']
  | .boolean false => ['f', 'a', 'l', 's', 'e']
  | .num i => intChars i
  | .str s => strLit s
  | .arr .nil => ['[', ']']
  | .arr (.cons x xs) =>
    '[' :: '\n' :: (nSpaces (ind + 2) ++ dumpVal (ind + 2) x ++ dumpItems (ind + 2) xs ++
      ('\n' :: (nSpaces ind ++ [']'])))
  | .obj .nil => ['{', '}']
  | .obj (.cons k v ms) =>
    '{' :: '\n' :: (nSpaces (ind + 2) ++ strLit k ++ (':' :: ' ' :: dumpVal (ind + 2) v) ++
      dumpMembers (ind + 2) ms ++ ('\n' :: (nSpaces ind ++ ['}'])))

/-- The `",\n<indent><element>"` continuation for array elements after the
first. -/
def dumpItems (ind : Nat) : JItems → List Char
  | .nil => []
  | .cons x xs => ',' :: '\n' :: (nSpaces ind ++ dumpVal ind x ++ dumpItems ind xs)

/-- The `",\n<indent>\"key\": <value>"` continuation for object members after
the first. -/
def dumpMembers (ind : Nat) : JMembers → List Char
  | .nil => []
  | .cons k v ms =>
    ',' :: '\n' :: (nSpaces ind ++ strLit k ++ (':' :: ' ' :: dumpVal ind v) ++ dumpMembers ind ms)
end

/-- Top-level `json.dumps(v, indent=2)`. -/
def dumps (v : JVal) : List Char := dumpVal 0 v


/-- Prepend a decoded character to the result of parsing the rest of a string
body. -/
def strCons (c : Char) (r : Option (List Char × List Char)) : Option (List Char × List Char) :=
  r.map (fun p => (c :: p.1, p.2))

mutual
/-- Decoder for the body of a JSON string literal (the input starts after the
opening quote); returns the decoded characters and the input after the closing
quote.  Matches CPython's strict `py_scanstring`: named escapes, `\uXXXX`
with surrogate-pair recombination, and rejection of raw control characters.
Lone surrogates (which CPython turns into non-scalar code units that `Char`
cannot represent) are rejected. -/
def parseStringBody : List Char → Option (List Char × List Char)
  | [] => none
  | c :: r =>
    if c = '"' then some ([], r)
    else if c = '\\' then parseEscape r
    else if c.toNat < 0x20 then none
    else strCons c (parseStringBody r)

/-- Decoder for what follows a backslash inside a JSON string literal. -/
def parseEscape : List Char → Option (List Char × List Char)
  | [] => none
  | e :: r =>
    if e = '"' then strCons '"' (parseStringBody r)
    else if e = '\\' then strCons '\\' (parseStringBody r)
    else if e = '/' then strCons '/' (parseStringBody r)
    else if e = 'b' then strCons (Char.ofNat 8) (parseStringBody r)
    else if e = 'f' then strCons (Char.ofNat 12) (parseStringBody r)
    else if e = 'n' then strCons '\n' (parseStringBody r)
    else if e = 'r' then strCons '\r' (parseStringBody r)
    else if e = 't' then strCons '\t' (parseStringBody r)
    else if e = 'u' then parseUEsc r
    else none

/-- Decoder for the four hex digits of a `\uXXXX` escape and, when they name a
high surrogate, the paired low-surrogate escape. -/
def parseUEsc : List Char → Option (List Char × List Char)
  | a :: b :: c :: d :: r2 =>
    (match hexQuad a b c d with
     | none => none
     | some x =>
       if 0xd800 ≤ x ∧ x ≤ 0xdbff then parseLoSur x r2
       else if 0xdc00 ≤ x ∧ x ≤ 0xdfff then none
       else strCons (Char.ofNat x) (parseStringBody r2))
  | _ => none

/-- Decoder for the low-surrogate escape following a high surrogate of value
`x`; the two combine into one astral character. -/
def parseLoSur (x : Nat) : List Char → Option (List Char × List Char)
  | '\\' :: 'u' :: a2 :: b2 :: c2 :: d2 :: r3 =>
    (match hexQuad a2 b2 c2 d2 with
     | none => none
     | some y =>
       if 0xdc00 ≤ y ∧ y ≤ 0xdfff then
         strCons (Char.ofNat (0x10000 + (x - 0xd800) * 0x400 + (y - 0xdc00)))
           (parseStringBody r3)
       else none)
  | _ => none
end

/-- Consume a maximal run of decimal digits, folding them onto `acc`. -/
def readDigitsAcc (acc : Nat) : List Char → Nat × List Char
  | [] => (acc, [])
  | c :: r => if c.isDigit then readDigitsAcc (acc * 10 + (c.toNat - 48)) r else (acc, c :: r)

/-- Parse the integral part of a JSON number: `0`, or a nonzero digit followed
by more digits (JSON forbids leading zeros). -/
def parseNat : List Char → Option (Nat × List Char)
  | [] => none
  | c :: r =>
    if c = '0' then some (0, r)
    else if c.isDigit then some (readDigitsAcc (c.toNat - 48) r)
    else none

/-- True when the next character would extend the number into a float literal
(fractions and exponents are outside the model; the parser rejects them where
CPython would produce a `float`). -/
def floatNext : List Char → Bool
  | c :: _ => c = '.' || c = 'e' || c = 'E'
  | [] => false

mutual
/-- Fuel-indexed recursive-descent JSON value parser, modelling CPython's
`json.loads` grammar (strict mode).  The fuel only bounds nesting-driven
recursion; `needFuel v` units suffice to parse a rendering of `v`. -/
def parseVal : Nat → List Char → Option (JVal × List Char)
  | 0, _ => none
  | f + 1, s =>
    match skipWs s with
    | [] => none
    | c :: r =>
      if c = 'n' then
        match r with
        | 'u' :: 'l' :: 'l' :: r2 => some (.null, r2)
        | _ => none
      else if c = 't' then
        match r with
        | 'r' :: 'u' :: 'e' :: r2 => some (.boolean true, r2)
        | _ => none
      else if c = 'f' then
        match r with
        | 'a' :: 'l' :: 's' :: 'e' :: r2 => some (.boolean false, r2)
        | _ => none
      else if c = '"' then (parseStringBody r).map (fun p => (.str p.1, p.2))
      else if c = '{' then
        match skipWs r with
        | [] => none
        | c2 :: r2 =>
          if c2 = '}' then some (.obj .nil, r2)
          else (parseMembers f (c2 :: r2)).map (fun p => (.obj p.1, p.2))
      else if c = '[' then
        match skipWs r with
        | [] => none
        | c2 :: r2 =>
          if c2 = ']' then some (.arr .nil, r2)
          else (parseElems f (c2 :: r2)).map (fun p => (.arr p.1, p.2))
      else if c = '-' then
        (parseNat r).bind fun p =>
          if floatNext p.2 then none else some (.num (-(p.1 : Int)), p.2)
      else if c.isDigit then
        (parseNat (c :: r)).bind fun p =>
          if floatNext p.2 then none else some (.num (p.1 : Int), p.2)
      else none

/-- Parse the elements of a non-empty JSON array, starting at the first
element and consuming the closing bracket. -/
def parseElems : Nat → List Char → Option (JItems × List Char)
  | 0, _ => none
  | f + 1, s =>
    match parseVal f s with
    | none => none
    | some (v, r1) =>
      match skipWs r1 with
      | ',' :: r2 =>
        (match parseElems f (skipWs r2) with
         | none => none
         | some (vs, r3) => some (.cons v vs, r3))
      | ']' :: r2 => some (.cons v .nil, r2)
      | _ => none

/-- Parse the members of a non-empty JSON object, starting at the first key's
opening quote and consuming the closing brace. -/
def parseMembers : Nat → List Char → Option (JMembers × List Char)
  | 0, _ => none
  | f + 1, s =>
    match s with
    | '"' :: r =>
      (match parseStringBody r with
       | none => none
       | some (k, r1) =>
         match skipWs r1 with
         | ':' :: r2 =>
           (match parseVal f r2 with
            | none => none
            | some (v, r3) =>
              match skipWs r3 with
              | ',' :: r4 =>
                (match parseMembers f (skipWs r4) with
                 | none => none
                 | some (ms, r5) => some (.cons k v ms, r5))
              | '}' :: r4 => some (.cons k v .nil, r4)
              | _ => none)
         | _ => none)
    | _ => none
end

/-- CPython's `json.loads`: parse one value and require only whitespace after
it. -/
def loads (s : List Char) : Option JVal :=
  match parseVal (s.length + 1) s with
  | some (v, rest) => if skipWs rest = [] then some v else none
  | none => none


/-- Ordered lookup of a key in an object, as Python's `dict.get` /
subscripting (keys are unique in any dict produced by `json.loads`). -/
def jLookup : JMembers → List Char → Option JVal
  | .nil, _ => none
  | .cons k v ms, key => if k = key then some v else jLookup ms key

/-- Python's `key in dict`. -/
def hasKey : JMembers → List Char → Bool
  | .nil, _ => false
  | .cons k _ ms, key => k = key || hasKey ms key

/-- Replace the value at every occurrence of `key`, keeping member order, as
`d[key] = v` does on a dict that contains `key`. -/
def setKeyAll : JMembers → List Char → JVal → JMembers
  | .nil, _, _ => .nil
  | .cons k v0 ms, key, v =>
    if k = key then .cons key v (setKeyAll ms key v) else .cons k v0 (setKeyAll ms key v)

/-- Append a new member at the end, as `d[key] = v` does on a dict that lacks
`key` (CPython dicts preserve insertion order). -/
def appendMember : JMembers → List Char → JVal → JMembers
  | .nil, key, v => .cons key v .nil
  | .cons k v0 ms, key, v => .cons k v0 (appendMember ms key v)

/-- Python's `d[key] = v` on an ordered dict. -/
def setKey (ms : JMembers) (key : List Char) (v : JVal) : JMembers :=
  if hasKey ms key then setKeyAll ms key v else appendMember ms key v

/-- The characters of the key `"version"`. -/
def verKey : List Char := ('v' :: 'e' :: 'r' :: 's' :: 'i' :: 'o' :: 'n' :: [])

/-- The characters of the key `"packages"`. -/
def pkgKey : List Char := ('p' :: 'a' :: 'c' :: 'k' :: 'a' :: 'g' :: 'e' :: 's' :: [])

/-- Document-level effect of `update_json_version` in `version_bump.py`:
`data["version"] = version`, then if `data.get("packages")` is a dict with a
`""` member whose value is a dict, set that member's `"version"` too.
Returns `none` when the document is not an object (in Python,
`data["version"] = version` then raises `TypeError`). -/
def update_json_doc (d : JVal) (version : List Char) : Option JVal :=
  match d with
  | .obj ms =>
    let ms1 := setKey ms verKey (.str version)
    let ms2 :=
      match jLookup ms1 pkgKey with
      | some (.obj pkgs) =>
        match jLookup pkgs [] with
        | some (.obj root) =>
          setKey ms1 pkgKey (.obj (setKey pkgs [] (.obj (setKey root verKey (.str version)))))
        | _ => ms1
      | _ => ms1
    some (.obj ms2)
  | _ => none

/-- Document-level effect of `update_tauri_conf`: only
`data["version"] = version`. -/
def update_tauri_doc (d : JVal) (version : List Char) : Option JVal :=
  match d with
  | .obj ms => some (.obj (setKey ms verKey (.str version)))
  | _ => none

/-- File-content effect of `update_json_version`: `json.loads` the text,
update the document, write `json.dumps(data, indent=2) + "\n"`.  `none`
models an uncaught Python exception raised before the write. -/
def update_json_version (content version : List Char) : Option (List Char) :=
  (loads content).bind fun d =>
    (update_json_doc d version).map fun d2 => dumps d2 ++ ['\n']

/-- File-content effect of `update_tauri_conf`. -/
def update_tauri_conf (content version : List Char) : Option (List Char) :=
  (loads content).bind fun d =>
    (update_tauri_doc d version).map fun d2 => dumps d2 ++ ['\n']

/-- Python's `str.splitlines()` on LF-separated text (the model assumes the
manifest uses `\n` line endings). -/
def splitlinesAux (cur : List Char) : List Char → List (List Char)
  | [] => if cur = [] then [] else [cur.reverse]
  | c :: r => if c = '\n' then cur.reverse :: splitlinesAux [] r else splitlinesAux (c :: cur) r

/-- Split file content into lines without their terminators. -/
def splitlines (s : List Char) : List (List Char) := splitlinesAux [] s

/-- Matcher for the anchored regex `^version\s*=\s*"[^"]*"\s*$` applied with
`re.match` to a single line (lines carry no terminator, so `$` means end of
string). -/
def versionLineMatches (l : List Char) : Bool :=
  if l.take 7 = verKey then
    match (l.drop 7).dropWhile isPySpace with
    | '=' :: r =>
      (match r.dropWhile isPySpace with
       | '"' :: r2 =>
         (match r2.dropWhile (fun c => !(c = '"')) with
          | '"' :: r3 => (r3.dropWhile isPySpace).isEmpty
          | _ => false)
       | _ => false)
    | _ => false
  else false

/-- The replacement line `f'version = "{version}"'`. -/
def versionLine (version : List Char) : List Char :=
  ('v' :: 'e' :: 'r' :: 's' :: 'i' :: 'o' :: 'n' :: ' ' :: '=' :: ' ' :: '"' :: []) ++
    version ++ ['"']

/-- The loop body of `update_cargo_version`: rebuild the line list, replacing
every matching line and recording whether any line matched. -/
def cargoReplaceLines (version : List Char) : List (List Char) → List (List Char) × Bool
  | [] => ([], false)
  | l :: ls =>
    let r := cargoReplaceLines version ls
    if versionLineMatches l then (versionLine version :: r.1, true) else (l :: r.1, r.2)

/-- File-content effect of `update_cargo_version`: split into lines, replace
matching lines, require at least one match (`raise SystemExit` otherwise,
modelled as `none`), write `"\n".join(new_lines) + "\n"`. -/
def update_cargo_version (content version : List Char) : Option (List Char) :=
  let r := cargoReplaceLines version (splitlines content)
  if r.2 then some (List.intercalate ['\n'] r.1 ++ ['\n']) else none

/-- The observable run of `update_cargo_version` on a file: the file's content
after the call together with a success flag; on failure (`SystemExit`) no
write occurs and the content is unchanged. -/
def update_cargo_run (content version : List Char) : List Char × Bool :=
  match update_cargo_version content version with
  | some out => (out, true)
  | none => (content, false)

/-- The script's `escape_for_yaml`: `json.dumps(value)`, which for a string
value is exactly the `ensure_ascii` JSON string literal. -/
def escape_for_yaml (value : List Char) : List Char := strLit value

/-- Iterating a Python text file: lines keep their trailing `'\n'` (the model
assumes LF line endings). -/
def splitLinesKeepAux (cur : List Char) : List Char → List (List Char)
  | [] => if cur = [] then [] else [cur.reverse]
  | c :: r =>
    if c = '\n' then (c :: cur).reverse :: splitLinesKeepAux [] r
    else splitLinesKeepAux (c :: cur) r

/-- Split content into lines, keeping terminators. -/
def splitLinesKeep (s : List Char) : List (List Char) := splitLinesKeepAux [] s

/-- The characters of `"releaseBody:"`. -/
def rbKey : List Char :=
  ('r' :: 'e' :: 'l' :: 'e' :: 'a' :: 's' :: 'e' :: 'B' :: 'o' :: 'd' :: 'y' :: ':' :: [])

/-- The test `line.lstrip().startswith("releaseBody:")`. -/
def isRBLine (l : List Char) : Bool := rbKey.isPrefixOf (pyLstrip l)

/-- The replacement line built by `update_release_body`: the original line's
leading-whitespace count rendered as spaces, then `releaseBody: `, the escaped
body, and a newline. -/
def mkRBLine (l : List Char) (esc : List Char) : List Char :=
  nSpaces (l.length - (pyLstrip l).length) ++ rbKey ++ (' ' :: esc) ++ ['\n']

/-- The loop of `update_release_body` over the file's lines. -/
def rbReplaceLines (esc : List Char) : List (List Char) → List (List Char) × Bool
  | [] => ([], false)
  | l :: ls =>
    let r := rbReplaceLines esc ls
    if isRBLine l then (mkRBLine l esc :: r.1, true) else (l :: r.1, r.2)

/-- Concatenate lines back into file content (`"".join(new_lines)`). -/
def joinAll (ls : List (List Char)) : List Char := ls.foldr (· ++ ·) []

/-- File-content effect of `update_release_body`: replace every
`releaseBody:` line with the escaped body, `raise SystemExit` (modelled as
`none`) when no line matches. -/
def update_release_body (content body : List Char) : Option (List Char) :=
  let esc := escape_for_yaml body
  let r := rbReplaceLines esc (splitLinesKeep content)
  if r.2 then some (joinAll r.1) else none

/-- The script's `prompt`: strip the operator's input, `raise SystemExit` on
an empty result (modelled as `none`). -/
def prompt (input : List Char) : Option (List Char) :=
  let value := pyStrip input
  if value = [] then none else some value

/-- The script's `get_current_version`: read `package.json`, require a
top-level `"version"` value that is a string with non-whitespace content. -/
def get_current_version (content : List Char) : Option (List Char) :=
  match loads content with
  | some (.obj ms) =>
    (match jLookup ms verKey with
     | some (.str s) => if pyStrip s = [] then none else some s
     | _ => none)
  | _ => none

/-- The five files the script edits, identified by their fixed paths. -/
structure Files where
  package_json : List Char
  package_lock : List Char
  tauri_conf : List Char
  cargo_toml : List Char
  release_workflow : List Char
deriving DecidableEq

/-- The body of `main`, executed step by step: each failing step terminates
the run (`SystemExit` or an uncaught exception), leaving all files written by
earlier steps in their modified state.  Returns the resulting file contents
and whether the run completed. -/
def mainSteps (st : Files) (versionInput bodyInput : List Char) : Files × Bool :=
  match get_current_version st.package_json with
  | none => (st, false)
  | some _ =>
    match prompt versionInput with
    | none => (st, false)
    | some version =>
      match prompt bodyInput with
      | none => (st, false)
      | some body =>
        match update_json_version st.package_json version with
        | none => (st, false)
        | some pj =>
          let st1 : Files := { st with package_json := pj }
          match update_json_version st1.package_lock version with
          | none => (st1, false)
          | some pl =>
            let st2 : Files := { st1 with package_lock := pl }
            match update_tauri_conf st2.tauri_conf version with
            | none => (st2, false)
            | some tc =>
              let st3 : Files := { st2 with tauri_conf := tc }
              match update_cargo_version st3.cargo_toml version with
              | none => (st3, false)
              | some cg =>
                let st4 : Files := { st3 with cargo_toml := cg }
                match update_release_body st4.release_workflow body with
                | none => (st4, false)
                | some rw => ({ st4 with release_workflow := rw }, true)

/-- A successful run of `main`: the final file contents when every step
succeeds. -/
def mainRun (st : Files) (versionInput bodyInput : List Char) : Option Files :=
  let r := mainSteps st versionInput bodyInput
  if r.2 then some r.1 else none

/-- Top-level `"version"` value of a JSON file's content, if the content is an
object. -/
def topVersion (content : List Char) : Option JVal :=
  match loads content with
  | some (.obj ms) => jLookup ms verKey
  | _ => none

/-- Nested `packages[""]["version"]` value of a JSON file's content, when the
whole chain is present with object shapes. -/
def rootPkgVersion (content : List Char) : Option JVal :=
  match loads content with
  | some (.obj ms) =>
    (match jLookup ms pkgKey with
     | some (.obj pkgs) =>
       (match jLookup pkgs [] with
        | some (.obj root) => jLookup root verKey
        | _ => none)
     | _ => none)
  | _ => none

/-- A response header: name and value. -/
def cacheControlHeader : List Char × List Char :=
  (("Cache-Control").toList, ("no-cache, no-store, must-revalidate").toList)

/-- The `Pragma: no-cache` header. -/
def pragmaHeader : List Char × List Char := (("Pragma").toList, ("no-cache").toList)

/-- The `Expires: 0` header. -/
def expiresHeader : List Char × List Char := (("Expires").toList, ("0").toList)

/-- The test server's `NoCacheRequestHandler.end_headers` override: whatever
headers the inherited `SimpleHTTPRequestHandler` logic has already emitted for
the response, the three no-cache headers are appended before the header block
is closed by `super().end_headers()`.  Every response a
`BaseHTTPRequestHandler` sends finalizes its header block through
`end_headers`, so the result is the full header list of the response. -/
def end_headers (sent : List (List Char × List Char)) : List (List Char × List Char) :=
  sent ++ [cacheControlHeader, pragmaHeader, expiresHeader]


/-! Character-level facts. -/

theorem char_eq_iff_toNat {a b : Char} : a = b ↔ a.toNat = b.toNat :=
  ⟨fun h => h ▸ rfl, fun h => by rw [← Char.ofNat_toNat a, h, Char.ofNat_toNat]⟩

theorem char_valid_nat (c : Char) :
    c.toNat < 0xd800 ∨ (0xdfff < c.toNat ∧ c.toNat < 0x110000) := c.valid

theorem toNat_ofNat_valid {n : Nat} (h : n.isValidChar) : (Char.ofNat n).toNat = n := by
  simp [Char.ofNat, h, Char.ofNatAux, Char.toNat, UInt32.toNat, BitVec.toNat_ofNatLt]

theorem isDigit_iff_toNat {c : Char} : c.isDigit = true ↔ 48 ≤ c.toNat ∧ c.toNat ≤ 57 := by
  constructor
  · intro h
    simp [Char.isDigit, decide_eq_true_eq, Char.le_def, UInt32.le_def] at h
    exact ⟨h.1, h.2⟩
  · intro h
    simp [Char.isDigit, decide_eq_true_eq, Char.le_def, UInt32.le_def]
    exact ⟨h.1, h.2⟩


theorem hexVal_hexDig : ∀ n, n < 16 → hexVal (hexDig n) = some n := by decide

theorem hexQuad_hex4 {n : Nat} (h : n < 65536) :
    hexQuad (hexDig (n / 4096 % 16)) (hexDig (n / 256 % 16)) (hexDig (n / 16 % 16))
      (hexDig (n % 16)) = some n := by
  have h1 := hexVal_hexDig (n / 4096 % 16) (Nat.mod_lt _ (by omega))
  have h2 := hexVal_hexDig (n / 256 % 16) (Nat.mod_lt _ (by omega))
  have h3 := hexVal_hexDig (n / 16 % 16) (Nat.mod_lt _ (by omega))
  have h4 := hexVal_hexDig (n % 16) (Nat.mod_lt _ (by omega))
  simp [hexQuad, h1, h2, h3, h4]
  omega

theorem hexDig_range : ∀ m, m < 16 → 48 ≤ (hexDig m).toNat ∧ (hexDig m).toNat ≤ 102 := by decide

theorem hexDig_mod_ascii (m : Nat) :
    32 ≤ (hexDig (m % 16)).toNat ∧ (hexDig (m % 16)).toNat ≤ 126 := by
  have := hexDig_range (m % 16) (Nat.mod_lt _ (by omega))
  omega

theorem hex4_ascii (x : Nat) (k : Char) (hk : k ∈ hex4 x) :
    32 ≤ k.toNat ∧ k.toNat ≤ 126 := by
  simp [hex4] at hk
  rcases hk with rfl | rfl | rfl | rfl <;> exact hexDig_mod_ascii _

/-- Every character emitted by the `ensure_ascii` escaper is printable ASCII;
in particular escaped output contains no newline and no carriage return. -/
theorem escChar_ascii (c k : Char) (hk : k ∈ escChar c) :
    0x20 ≤ k.toNat ∧ k.toNat ≤ 0x7e := by
  by_cases h1 : c = '"'
  · subst h1; simp [escChar] at hk; rcases hk with rfl | rfl
    all_goals decide
  by_cases h2 : c = '\\'
  · subst h2; simp [escChar] at hk; rcases hk with rfl | rfl
    all_goals decide
  by_cases h3 : c = '\n'
  · subst h3; simp [escChar] at hk; rcases hk with rfl | rfl
    all_goals decide
  by_cases h4 : c = '\r'
  · subst h4; simp [escChar] at hk; rcases hk with rfl | rfl
    all_goals decide
  by_cases h5 : c = '\t'
  · subst h5; simp [escChar] at hk; rcases hk with rfl | rfl
    all_goals decide
  by_cases h6 : c.toNat = 8
  · have hc : c = Char.ofNat 8 := by rw [← h6, Char.ofNat_toNat]
    subst hc; simp [escChar] at hk; rcases hk with rfl | rfl
    all_goals decide
  by_cases h7 : c.toNat = 12
  · have hc : c = Char.ofNat 12 := by rw [← h7, Char.ofNat_toNat]
    subst hc; simp [escChar] at hk; rcases hk with rfl | rfl
    all_goals decide
  by_cases h8 : 0x20 ≤ c.toNat ∧ c.toNat ≤ 0x7e
  · simp [escChar, h1, h2, h3, h4, h5, h6, h7, h8] at hk
    subst hk; exact h8
  by_cases h9 : c.toNat < 0x10000
  · simp [escChar, h1, h2, h3, h4, h5, h6, h7, h8, h9] at hk
    rcases hk with rfl | rfl | h
    · decide
    · decide
    · exact hex4_ascii _ _ h
  · simp [escChar, h1, h2, h3, h4, h5, h6, h7, h8, h9] at hk
    rcases hk with rfl | rfl | h | rfl | rfl | h
    · decide
    · decide
    · exact hex4_ascii _ _ h
    · decide
    · decide
    · exact hex4_ascii _ _ h

theorem psb_quote (r : List Char) : parseStringBody ('"' :: r) = some ([], r) := by
  conv_lhs => rw [parseStringBody.eq_def]
  simp

theorem psb_esc (r : List Char) : parseStringBody ('\\' :: r) = parseEscape r := by
  conv_lhs => rw [parseStringBody.eq_def]
  simp

theorem psb_plain (c : Char) (r : List Char) (h1 : ¬c = '"') (h2 : ¬c = '\\')
    (h3 : ¬c.toNat < 0x20) : parseStringBody (c :: r) = strCons c (parseStringBody r) := by
  conv_lhs => rw [parseStringBody.eq_def]
  simp only [h1, h2, h3, if_false, ite_false]

theorem pesc_quote (r : List Char) : parseEscape ('"' :: r) = strCons '"' (parseStringBody r) := by
  conv_lhs => rw [parseEscape.eq_def]
  simp

theorem pesc_back (r : List Char) : parseEscape ('\\' :: r) = strCons '\\' (parseStringBody r) := by
  conv_lhs => rw [parseEscape.eq_def]
  simp

theorem pesc_b (r : List Char) :
    parseEscape ('b' :: r) = strCons (Char.ofNat 8) (parseStringBody r) := by
  conv_lhs => rw [parseEscape.eq_def]
  simp

theorem pesc_f (r : List Char) :
    parseEscape ('f' :: r) = strCons (Char.ofNat 12) (parseStringBody r) := by
  conv_lhs => rw [parseEscape.eq_def]
  simp

theorem pesc_n (r : List Char) : parseEscape ('n' :: r) = strCons '\n' (parseStringBody r) := by
  conv_lhs => rw [parseEscape.eq_def]
  simp

theorem pesc_r (r : List Char) : parseEscape ('r' :: r) = strCons '\r' (parseStringBody r) := by
  conv_lhs => rw [parseEscape.eq_def]
  simp

theorem pesc_t (r : List Char) : parseEscape ('t' :: r) = strCons '\t' (parseStringBody r) := by
  conv_lhs => rw [parseEscape.eq_def]
  simp

theorem pesc_u (r : List Char) : parseEscape ('u' :: r) = parseUEsc r := by
  conv_lhs => rw [parseEscape.eq_def]
  simp

theorem puesc_bmp (a b c d : Char) (r2 : List Char) (x : Nat) (hq : hexQuad a b c d = some x)
    (hs1 : ¬(0xd800 ≤ x ∧ x ≤ 0xdbff)) (hs2 : ¬(0xdc00 ≤ x ∧ x ≤ 0xdfff)) :
    parseUEsc (a :: b :: c :: d :: r2) = strCons (Char.ofNat x) (parseStringBody r2) := by
  conv_lhs => rw [parseUEsc.eq_def]
  simp only [hq, hs1, hs2, if_false, ite_false]

theorem puesc_hi (a b c d : Char) (r2 : List Char) (x : Nat) (hq : hexQuad a b c d = some x)
    (hx : 0xd800 ≤ x ∧ x ≤ 0xdbff) :
    parseUEsc (a :: b :: c :: d :: r2) = parseLoSur x r2 := by
  conv_lhs => rw [parseUEsc.eq_def]
  simp only [hq, hx, if_true, ite_true, and_self]

theorem plosur_lo (x : Nat) (a2 b2 c2 d2 : Char) (r3 : List Char) (y : Nat)
    (hq : hexQuad a2 b2 c2 d2 = some y) (hy : 0xdc00 ≤ y ∧ y ≤ 0xdfff) :
    parseLoSur x ('\\' :: 'u' :: a2 :: b2 :: c2 :: d2 :: r3) =
      strCons (Char.ofNat (0x10000 + (x - 0xd800) * 0x400 + (y - 0xdc00)))
        (parseStringBody r3) := by
  conv_lhs => rw [parseLoSur.eq_def]
  simp only [hq, hy, if_true, ite_true, and_self]

/-- Decoding inverts escaping: parsing the escaped rendering of `s` followed
by the closing quote recovers exactly `s` and the input after the quote. -/
theorem parseStringBody_escSeq (s : List Char) : ∀ rest : List Char,
    parseStringBody (escSeq s ++ ('"' :: rest)) = some (s, rest) := by
  induction s with
  | nil => intro rest; rw [escSeq, List.nil_append, psb_quote]
  | cons c cs ih =>
    intro rest
    rw [escSeq, List.append_assoc]
    by_cases h1 : c = '"'
    · subst h1
      have hesc : escChar '"' = ['\\', '"'] := by decide
      rw [hesc]
      simp only [List.cons_append, List.nil_append]
      rw [psb_esc, pesc_quote, ih]
      rfl
    by_cases h2 : c = '\\'
    · subst h2
      have hesc : escChar '\\' = ['\\', '\\'] := by decide
      rw [hesc]
      simp only [List.cons_append, List.nil_append]
      rw [psb_esc, pesc_back, ih]
      rfl
    by_cases h3 : c = '\n'
    · subst h3
      have hesc : escChar '\n' = ['\\', 'n'] := by decide
      rw [hesc]
      simp only [List.cons_append, List.nil_append]
      rw [psb_esc, pesc_n, ih]
      rfl
    by_cases h4 : c = '\r'
    · subst h4
      have hesc : escChar '\r' = ['\\', 'r'] := by decide
      rw [hesc]
      simp only [List.cons_append, List.nil_append]
      rw [psb_esc, pesc_r, ih]
      rfl
    by_cases h5 : c = '\t'
    · subst h5
      have hesc : escChar '\t' = ['\\', 't'] := by decide
      rw [hesc]
      simp only [List.cons_append, List.nil_append]
      rw [psb_esc, pesc_t, ih]
      rfl
    by_cases h6 : c.toNat = 8
    · have hc : c = Char.ofNat 8 := by rw [← h6, Char.ofNat_toNat]
      subst hc
      have hesc : escChar (Char.ofNat 8) = ['\\', 'b'] := by decide
      rw [hesc]
      simp only [List.cons_append, List.nil_append]
      rw [psb_esc, pesc_b, ih]
      rfl
    by_cases h7 : c.toNat = 12
    · have hc : c = Char.ofNat 12 := by rw [← h7, Char.ofNat_toNat]
      subst hc
      have hesc : escChar (Char.ofNat 12) = ['\\', 'f'] := by decide
      rw [hesc]
      simp only [List.cons_append, List.nil_append]
      rw [psb_esc, pesc_f, ih]
      rfl
    by_cases h8 : 0x20 ≤ c.toNat ∧ c.toNat ≤ 0x7e
    · have hesc : escChar c = [c] := by simp [escChar, h1, h2, h3, h4, h5, h6, h7, h8]
      rw [hesc, List.cons_append, List.nil_append,
        psb_plain c _ h1 h2 (by omega), ih]
      rfl
    by_cases h9 : c.toNat < 0x10000
    · have hval := char_valid_nat c
      have hs1 : ¬ (0xd800 ≤ c.toNat ∧ c.toNat ≤ 0xdbff) := by omega
      have hs2 : ¬ (0xdc00 ≤ c.toNat ∧ c.toNat ≤ 0xdfff) := by omega
      have hesc : escChar c = '\\' :: 'u' :: hex4 c.toNat := by
        simp [escChar, h1, h2, h3, h4, h5, h6, h7, h8, h9]
      rw [hesc, hex4]
      simp only [List.cons_append, List.nil_append]
      rw [psb_esc, pesc_u, puesc_bmp _ _ _ _ _ _ (hexQuad_hex4 h9) hs1 hs2,
        Char.ofNat_toNat, ih]
      rfl
    · have hval := char_valid_nat c
      have hhi : 0xd800 + (c.toNat - 0x10000) / 0x400 < 65536 := by omega
      have hlo : 0xdc00 + (c.toNat - 0x10000) % 0x400 < 65536 := by omega
      have hs1 : 0xd800 ≤ 0xd800 + (c.toNat - 0x10000) / 0x400 ∧
          0xd800 + (c.toNat - 0x10000) / 0x400 ≤ 0xdbff := by omega
      have hs2 : 0xdc00 ≤ 0xdc00 + (c.toNat - 0x10000) % 0x400 ∧
          0xdc00 + (c.toNat - 0x10000) % 0x400 ≤ 0xdfff := by omega
      have harith : 0x10000 + (0xd800 + (c.toNat - 0x10000) / 0x400 - 0xd800) * 0x400 +
          (0xdc00 + (c.toNat - 0x10000) % 0x400 - 0xdc00) = c.toNat := by omega
      have hesc : escChar c = ('\\' :: 'u' :: hex4 (0xd800 + (c.toNat - 0x10000) / 0x400)) ++
          ('\\' :: 'u' :: hex4 (0xdc00 + (c.toNat - 0x10000) % 0x400)) := by
        simp [escChar, h1, h2, h3, h4, h5, h6, h7, h8, h9]
      rw [hesc, hex4, hex4]
      simp only [List.cons_append, List.nil_append, List.append_assoc]
      rw [psb_esc, pesc_u, puesc_hi _ _ _ _ _ _ (hexQuad_hex4 hhi) hs1,
        plosur_lo _ _ _ _ _ _ _ (hexQuad_hex4 hlo) hs2, harith, Char.ofNat_toNat, ih]
      rfl

/-! Decimal rendering and its parse. -/

theorem natCharsAux_fuel : ∀ n f f' acc, n < f → n < f' →
    natCharsAux f n acc = natCharsAux f' n acc := by
  intro n
  induction n using Nat.strong_induction_on with
  | _ n ih =>
    intro f f' acc hf hf'
    cases f with
    | zero => omega
    | succ g =>
    cases f' with
    | zero => omega
    | succ g' =>
    by_cases h : n < 10
    · simp [natCharsAux, h]
    · simp only [natCharsAux, h, if_false, ite_false]
      exact ih (n / 10) (by omega) g g' _ (by omega) (by omega)

theorem natCharsAux_shift : ∀ n f acc, n < f →
    natCharsAux f n acc = natCharsAux f n [] ++ acc := by
  intro n
  induction n using Nat.strong_induction_on with
  | _ n ih =>
    intro f acc hf
    cases f with
    | zero => omega
    | succ g =>
    by_cases h : n < 10
    · simp [natCharsAux, h]
    · simp only [natCharsAux, h, if_false, ite_false]
      rw [ih (n / 10) (by omega) g (digitChar (n % 10) :: acc) (by omega),
        ih (n / 10) (by omega) g [digitChar (n % 10)] (by omega), List.append_assoc]
      simp

/-- The unfolding equation for `natChars` in its natural recursive form. -/
theorem natChars_eq (n : Nat) :
    natChars n = if n < 10 then [digitChar n] else natChars (n / 10) ++ [digitChar (n % 10)] := by
  by_cases h : n < 10
  · simp [natChars, natCharsAux, h]
  · rw [if_neg h]
    show natCharsAux (n + 1) n [] = _
    conv_lhs => rw [natCharsAux.eq_def]
    simp only [h, if_false, ite_false]
    rw [natCharsAux_shift (n / 10) n _ (by omega),
      natCharsAux_fuel (n / 10) n (n / 10 + 1) [] (by omega) (by omega)]
    rfl

theorem digitChar_isDigit : ∀ n, n < 10 → (digitChar n).isDigit = true := by decide

theorem digitChar_toNat : ∀ n, n < 10 → (digitChar n).toNat = 48 + n := by decide

theorem digitChar_zero_iff : ∀ n, n < 10 → ((digitChar n = '0') ↔ n = 0) := by decide

/-- The number of decimal digits, defined with the same fuel device. -/
def numDigitsAux : Nat → Nat → Nat
  | 0, _ => 0
  | f + 1, n => if n < 10 then 1 else numDigitsAux f (n / 10) + 1

/-- The number of decimal digits of `n`. -/
def numDigits (n : Nat) : Nat := numDigitsAux (n + 1) n

theorem numDigitsAux_fuel : ∀ n f f', n < f → n < f' → numDigitsAux f n = numDigitsAux f' n := by
  intro n
  induction n using Nat.strong_induction_on with
  | _ n ih =>
    intro f f' hf hf'
    cases f with
    | zero => omega
    | succ g =>
    cases f' with
    | zero => omega
    | succ g' =>
    by_cases h : n < 10
    · simp [numDigitsAux, h]
    · simp only [numDigitsAux, h, if_false, ite_false]
      rw [ih (n / 10) (by omega) g g' (by omega) (by omega)]

theorem numDigits_eq (n : Nat) :
    numDigits n = if n < 10 then 1 else numDigits (n / 10) + 1 := by
  by_cases h : n < 10
  · simp [numDigits, numDigitsAux, h]
  · rw [if_neg h]
    show numDigitsAux (n + 1) n = _
    conv_lhs => rw [numDigitsAux.eq_def]
    simp only [h, if_false, ite_false]
    rw [numDigitsAux_fuel (n / 10) n (n / 10 + 1) (by omega) (by omega)]
    rfl

/-- Horner-style accumulation: reading the digits of `n` after accumulator
`acc` multiplies `acc` past `n`'s digits and adds `n`. -/
theorem readDigitsAcc_natChars : ∀ n acc rest,
    readDigitsAcc acc (natChars n ++ rest) =
      readDigitsAcc (acc * 10 ^ numDigits n + n) rest := by
  intro n
  induction n using Nat.strong_induction_on with
  | _ n ih =>
    intro acc rest
    by_cases h : n < 10
    · rw [natChars_eq, if_pos h, numDigits_eq, if_pos h]
      simp only [List.cons_append, List.nil_append, readDigitsAcc,
        digitChar_isDigit n h, if_true, ite_true, digitChar_toNat n h]
      have : acc * 10 + (48 + n - 48) = acc * 10 ^ 1 + n := by omega
      rw [this]
      rfl
    · rw [natChars_eq, if_neg h, numDigits_eq, if_neg h, List.append_assoc,
        ih (n / 10) (by omega)]
      simp only [List.cons_append, List.nil_append, readDigitsAcc,
        digitChar_isDigit (n % 10) (by omega), if_true, ite_true,
        digitChar_toNat (n % 10) (by omega)]
      have heq : (acc * 10 ^ numDigits (n / 10) + n / 10) * 10 + (48 + n % 10 - 48) =
          acc * 10 ^ (numDigits (n / 10) + 1) + n := by
        rw [pow_succ, ← mul_assoc]
        omega
      rw [heq]
      rfl

theorem natChars_head : ∀ n, ∃ d ds, natChars n = d :: ds ∧ d.isDigit = true ∧
    ((d = '0') ↔ n = 0) := by
  intro n
  induction n using Nat.strong_induction_on with
  | _ n ih =>
    by_cases h : n < 10
    · refine ⟨digitChar n, [], ?_, digitChar_isDigit n h, ?_⟩
      · rw [natChars_eq, if_pos h]
      · exact digitChar_zero_iff n h
    · obtain ⟨d, ds, hds, hdig, hzero⟩ := ih (n / 10) (by omega)
      refine ⟨d, ds ++ [digitChar (n % 10)], ?_, hdig, ?_⟩
      · rw [natChars_eq, if_neg h, hds]; rfl
      · constructor
        · intro hd; exfalso; have := hzero.mp hd; omega
        · intro hn; omega

theorem readDigitsAcc_stop (m : Nat) (rest : List Char)
    (hrest : ∀ c cs, rest = c :: cs → c.isDigit = false) :
    readDigitsAcc m rest = (m, rest) := by
  cases rest with
  | nil => rfl
  | cons c cs => simp [readDigitsAcc, hrest c cs rfl]

/-! Number parsing round-trip. -/

/-- True when the input cannot extend a decimal number literal: what follows a
serialized number inside a `dumps` rendering always satisfies this. -/
def numberStop : List Char → Bool
  | [] => true
  | c :: _ => !(c.isDigit || c = '.' || c = 'e' || c = 'E')

theorem numberStop_head {c : Char} {cs : List Char} (h : numberStop (c :: cs) = true) :
    c.isDigit = false ∧ c ≠ '.' ∧ c ≠ 'e' ∧ c ≠ 'E' := by
  simp [numberStop] at h
  exact ⟨h.1.1.1, h.1.1.2, h.1.2, h.2⟩

theorem floatNext_of_stop {rest : List Char} (h : numberStop rest = true) :
    floatNext rest = false := by
  cases rest with
  | nil => rfl
  | cons c cs =>
    obtain ⟨_, h2, h3, h4⟩ := numberStop_head h
    simp [floatNext, h2, h3, h4]

theorem readDigitsAcc_stop_of (m : Nat) (rest : List Char) (h : numberStop rest = true) :
    readDigitsAcc m rest = (m, rest) := by
  apply readDigitsAcc_stop
  intro c cs hc
  subst hc
  exact (numberStop_head h).1

theorem parseNat_natChars (n : Nat) (rest : List Char) (hrest : numberStop rest = true) :
    parseNat (natChars n ++ rest) = some (n, rest) := by
  by_cases h0 : n = 0
  · subst h0
    have : natChars 0 = ['0'] := by decide
    rw [this, List.cons_append, List.nil_append]
    conv_lhs => rw [parseNat.eq_def]
    simp
  · obtain ⟨d, ds, hds, hdig, hzero⟩ := natChars_head n
    have hdz : ¬ d = '0' := fun e => h0 (hzero.mp e)
    have hread : readDigitsAcc 0 (natChars n ++ rest) = (n, rest) := by
      rw [readDigitsAcc_natChars]
      simp only [Nat.zero_mul, Nat.zero_add]
      exact readDigitsAcc_stop_of n rest hrest
    rw [hds, List.cons_append] at hread ⊢
    conv_lhs => rw [parseNat.eq_def]
    simp only [hdz, hdig, if_false, ite_false, if_true, ite_true]
    rw [readDigitsAcc] at hread
    simp only [hdig, if_true, ite_true] at hread
    rw [show (0 : Nat) * 10 + (d.toNat - 48) = d.toNat - 48 by omega] at hread
    rw [hread]

/-! JSON whitespace facts. -/

theorem char_ne_of_toNat_ne {c d : Char} (h : c.toNat ≠ d.toNat) : c ≠ d :=
  fun e => h (congrArg Char.toNat e)

theorem isJsonWs_false {c : Char}
    (h : c.toNat ≠ 32 ∧ c.toNat ≠ 9 ∧ c.toNat ≠ 10 ∧ c.toNat ≠ 13) : isJsonWs c = false := by
  simp [isJsonWs]
  omega

theorem skipWs_cons_false {c : Char} {r : List Char} (h : isJsonWs c = false) :
    skipWs (c :: r) = c :: r := by
  simp [skipWs, List.dropWhile_cons, h]

theorem skipWs_cons_true {c : Char} {r : List Char} (h : isJsonWs c = true) :
    skipWs (c :: r) = skipWs r := by
  simp [skipWs, List.dropWhile_cons, h]

theorem skipWs_nSpaces (n : Nat) (r : List Char) : skipWs (nSpaces n ++ r) = skipWs r := by
  induction n with
  | zero => rfl
  | succ m ih =>
    rw [nSpaces, List.replicate_succ, List.cons_append, skipWs_cons_true (by decide)]
    exact ih

theorem isJsonWs_digit {c : Char} (h : c.isDigit = true) : isJsonWs c = false := by
  have := isDigit_iff_toNat.mp h
  exact isJsonWs_false (by omega)

/-- Every `dumps` rendering starts with a non-whitespace character that is not
a closing bracket. -/
theorem dumpVal_head (d : JVal) (ind : Nat) : ∃ c cs, dumpVal ind d = c :: cs ∧
    isJsonWs c = false ∧ c ≠ ']' ∧ c ≠ '}' := by
  cases d with
  | null => exact ⟨'n', ['u', 'l', 'l'], rfl, by decide, by decide, by decide⟩
  | boolean b =>
    cases b with
    | true => exact ⟨'t', ['r', 'u', 'e'], rfl, by decide, by decide, by decide⟩
    | false => exact ⟨'f', ['a', 'l', 's', 'e'], rfl, by decide, by decide, by decide⟩
  | num i =>
    by_cases hneg : i < 0
    · refine ⟨'-', natChars i.natAbs, ?_, by decide, by decide, by decide⟩
      show intChars i = _
      rw [intChars, if_pos hneg]
    · obtain ⟨d0, ds, hds, hdig, _⟩ := natChars_head i.natAbs
      refine ⟨d0, ds, ?_, isJsonWs_digit hdig, ?_, ?_⟩
      · show intChars i = _
        rw [intChars, if_neg hneg, hds]
      · have := isDigit_iff_toNat.mp hdig
        exact char_ne_of_toNat_ne (by have : (']').toNat = 93 := rfl; omega)
      · have := isDigit_iff_toNat.mp hdig
        exact char_ne_of_toNat_ne (by have : ('}').toNat = 125 := rfl; omega)
  | str s => exact ⟨'"', escSeq s ++ ['"'], rfl, by decide, by decide, by decide⟩
  | arr its =>
    cases its with
    | nil => exact ⟨'[', [']'], rfl, by decide, by decide, by decide⟩
    | cons x xs =>
      exact ⟨'[', _, rfl, by decide, by decide, by decide⟩
  | obj ms =>
    cases ms with
    | nil => exact ⟨'{', ['}'], rfl, by decide, by decide, by decide⟩
    | cons k v ms' =>
      exact ⟨'{', _, rfl, by decide, by decide, by decide⟩

mutual
/-- Parser fuel sufficient for a rendering of the value (see
`parseVal_dumpVal`). -/
def needF : JVal → Nat
  | .null => 1
  | .boolean _ => 1
  | .num _ => 1
  | .str _ => 1
  | .arr its => 1 + needL its
  | .obj ms => 1 + needM ms

/-- Fuel sufficient for the elements of an array. -/
def needL : JItems → Nat
  | .nil => 1
  | .cons x xs => 1 + needF x + needL xs

/-- Fuel sufficient for the members of an object. -/
def needM : JMembers → Nat
  | .nil => 1
  | .cons _ v ms => 1 + needF v + needM ms
end

theorem need_le_length : ∀ n : Nat,
    (∀ d : JVal, sizeOf d ≤ n → ∀ ind, needF d ≤ (dumpVal ind d).length) ∧
    (∀ its : JItems, sizeOf its ≤ n → ∀ ind, needL its ≤ (dumpItems ind its).length + 2) ∧
    (∀ ms : JMembers, sizeOf ms ≤ n → ∀ ind, needM ms ≤ (dumpMembers ind ms).length + 2) := by
  intro n
  induction n using Nat.strong_induction_on with
  | _ n ih =>
    refine ⟨?_, ?_, ?_⟩
    · intro d hd ind
      cases d with
      | null => simp [needF, dumpVal]
      | boolean b => cases b <;> simp [needF, dumpVal]
      | num i =>
        obtain ⟨c, cs, hds, _⟩ := dumpVal_head (.num i) ind
        rw [needF, hds]
        simp
      | str s => rw [needF]; simp [dumpVal, strLit]
      | arr its =>
        cases its with
        | nil => simp [needF, needL, dumpVal]
        | cons x xs =>
          have hsz : 1 + (1 + sizeOf x + sizeOf xs) ≤ n := by
            have heq : sizeOf (JVal.arr (JItems.cons x xs)) = 1 + (1 + sizeOf x + sizeOf xs) := by
              simp
            omega
          have hx := (ih (n - 1) (by omega)).1 x (by omega) (ind + 2)
          have hxs := (ih (n - 1) (by omega)).2.1 xs (by omega) (ind + 2)
          simp only [needF, needL, dumpVal, List.length_cons, List.length_append, nSpaces,
            List.length_replicate]
          omega
      | obj ms =>
        cases ms with
        | nil => simp [needF, needM, dumpVal]
        | cons k v ms' =>
          have hsz : 1 + (1 + sizeOf k + sizeOf v + sizeOf ms') ≤ n := by
            have heq : sizeOf (JVal.obj (JMembers.cons k v ms')) =
                1 + (1 + sizeOf k + sizeOf v + sizeOf ms') := by simp
            omega
          have hv := (ih (n - 1) (by omega)).1 v (by omega) (ind + 2)
          have hms := (ih (n - 1) (by omega)).2.2 ms' (by omega) (ind + 2)
          simp only [needF, needM, dumpVal, strLit, List.length_cons, List.length_append,
            nSpaces, List.length_replicate]
          omega
    · intro its hits ind
      cases its with
      | nil => simp [needL, dumpItems]
      | cons x xs =>
        have hsz : 1 + sizeOf x + sizeOf xs ≤ n := by
          have heq : sizeOf (JItems.cons x xs) = 1 + sizeOf x + sizeOf xs := by simp
          omega
        have hx := (ih (n - 1) (by omega)).1 x (by omega) ind
        have hxs := (ih (n - 1) (by omega)).2.1 xs (by omega) ind
        simp only [needL, dumpItems, List.length_cons, List.length_append, nSpaces,
          List.length_replicate]
        omega
    · intro ms hms ind
      cases ms with
      | nil => simp [needM, dumpMembers]
      | cons k v ms' =>
        have hsz : 1 + sizeOf k + sizeOf v + sizeOf ms' ≤ n := by
          have heq : sizeOf (JMembers.cons k v ms') = 1 + sizeOf k + sizeOf v + sizeOf ms' := by
            simp
          omega
        have hv := (ih (n - 1) (by omega)).1 v (by omega) ind
        have hms2 := (ih (n - 1) (by omega)).2.2 ms' (by omega) ind
        simp only [needM, dumpMembers, strLit, List.length_cons, List.length_append, nSpaces,
          List.length_replicate]
        omega

/-- Fuel bound: the rendering's length (plus slack) dominates the fuel the
parser needs. -/
theorem needF_le_dump (d : JVal) (ind : Nat) : needF d ≤ (dumpVal ind d).length :=
  (need_le_length (sizeOf d)).1 d (Nat.le_refl _) ind

/-! Parser head-dispatch lemmas: one per branch of `parseVal`. -/

theorem skipWs_dump (d : JVal) (ind : Nat) (X : List Char) :
    skipWs (dumpVal ind d ++ X) = dumpVal ind d ++ X := by
  obtain ⟨c, cs, h, hw, _, _⟩ := dumpVal_head d ind
  rw [h, List.cons_append, skipWs_cons_false hw]

theorem skipWs_strLit (k : List Char) (X : List Char) :
    skipWs (strLit k ++ X) = strLit k ++ X := by
  rw [strLit, List.cons_append, skipWs_cons_false (by decide)]

theorem parseVal_null (f : Nat) (s r : List Char) (hs : skipWs s = 'n' :: 'u' :: 'l' :: 'l' :: r) :
    parseVal (f + 1) s = some (.null, r) := by
  rw [parseVal.eq_2, hs]
  rfl

theorem parseVal_true (f : Nat) (s r : List Char) (hs : skipWs s = 't' :: 'r' :: 'u' :: 'e' :: r) :
    parseVal (f + 1) s = some (.boolean true, r) := by
  rw [parseVal.eq_2, hs]
  rfl

theorem parseVal_false (f : Nat) (s r : List Char)
    (hs : skipWs s = 'f' :: 'a' :: 'l' :: 's' :: 'e' :: r) :
    parseVal (f + 1) s = some (.boolean false, r) := by
  rw [parseVal.eq_2, hs]
  rfl

theorem parseVal_quote (f : Nat) (s r : List Char) (hs : skipWs s = '"' :: r) :
    parseVal (f + 1) s = (parseStringBody r).map (fun p => (.str p.1, p.2)) := by
  rw [parseVal.eq_2, hs]
  rfl

theorem parseVal_minus (f : Nat) (s r : List Char) (hs : skipWs s = '-' :: r) :
    parseVal (f + 1) s =
      (parseNat r).bind fun p =>
        if floatNext p.2 then none else some (.num (-(p.1 : Int)), p.2) := by
  rw [parseVal.eq_2, hs]
  rfl

theorem parseVal_arr_nil (f : Nat) (s r r2 : List Char) (hs : skipWs s = '[' :: r)
    (hr : skipWs r = ']' :: r2) : parseVal (f + 1) s = some (.arr .nil, r2) := by
  rw [parseVal.eq_2, hs]
  simp only [hr]
  rfl

theorem parseVal_arr_go (f : Nat) (s r : List Char) (c2 : Char) (r2 : List Char)
    (hs : skipWs s = '[' :: r) (hr : skipWs r = c2 :: r2) (hc2 : ¬ c2 = ']') :
    parseVal (f + 1) s = (parseElems f (c2 :: r2)).map (fun p => (.arr p.1, p.2)) := by
  rw [parseVal.eq_2, hs]
  simp only [hr, hc2, if_false, ite_false]
  rfl

theorem parseVal_obj_nil (f : Nat) (s r r2 : List Char) (hs : skipWs s = '{' :: r)
    (hr : skipWs r = '}' :: r2) : parseVal (f + 1) s = some (.obj .nil, r2) := by
  rw [parseVal.eq_2, hs]
  simp only [hr]
  rfl

theorem parseVal_obj_go (f : Nat) (s r : List Char) (c2 : Char) (r2 : List Char)
    (hs : skipWs s = '{' :: r) (hr : skipWs r = c2 :: r2) (hc2 : ¬ c2 = '}') :
    parseVal (f + 1) s = (parseMembers f (c2 :: r2)).map (fun p => (.obj p.1, p.2)) := by
  rw [parseVal.eq_2, hs]
  simp only [hr, hc2, if_false, ite_false]
  rfl

theorem parseVal_digit (f : Nat) (s : List Char) (c : Char) (r : List Char)
    (hs : skipWs s = c :: r) (hc : c.isDigit = true) :
    parseVal (f + 1) s =
      (parseNat (c :: r)).bind fun p =>
        if floatNext p.2 then none else some (.num (p.1 : Int), p.2) := by
  have hb := isDigit_iff_toNat.mp hc
  have h1 : ¬ c = 'n' := char_ne_of_toNat_ne (by have e : ('n').toNat = 110 := rfl; omega)
  have h2 : ¬ c = 't' := char_ne_of_toNat_ne (by have e : ('t').toNat = 116 := rfl; omega)
  have h3 : ¬ c = 'f' := char_ne_of_toNat_ne (by have e : ('f').toNat = 102 := rfl; omega)
  have h4 : ¬ c = '"' := char_ne_of_toNat_ne (by have e : ('"').toNat = 34 := rfl; omega)
  have h5 : ¬ c = '{' := char_ne_of_toNat_ne (by have e : ('{').toNat = 123 := rfl; omega)
  have h6 : ¬ c = '[' := char_ne_of_toNat_ne (by have e : ('[').toNat = 91 := rfl; omega)
  have h7 : ¬ c = '-' := char_ne_of_toNat_ne (by have e : ('-').toNat = 45 := rfl; omega)
  rw [parseVal.eq_2, hs]
  simp only [h1, h2, h3, h4, h5, h6, h7, hc, if_false, ite_false, if_true, ite_true]

theorem parseElems_done (f : Nat) (s : List Char) (x : JVal) (rest0 r : List Char)
    (hv : parseVal f s = some (x, rest0)) (hr : skipWs rest0 = ']' :: r) :
    parseElems (f + 1) s = some (.cons x .nil, r) := by
  rw [parseElems.eq_2, hv]
  simp only [hr]

theorem parseElems_comma (f : Nat) (s : List Char) (x : JVal) (rest0 r2 : List Char)
    (hv : parseVal f s = some (x, rest0)) (hr : skipWs rest0 = ',' :: r2) :
    parseElems (f + 1) s =
      (match parseElems f (skipWs r2) with
       | none => none
       | some (vs, r3) => some (.cons x vs, r3)) := by
  rw [parseElems.eq_2, hv]
  simp only [hr]

theorem parseMembers_last (f : Nat) (r k r1 r2 : List Char) (v : JVal) (r3 r4 : List Char)
    (hk : parseStringBody r = some (k, r1)) (hc : skipWs r1 = ':' :: r2)
    (hv : parseVal f r2 = some (v, r3)) (hr : skipWs r3 = '}' :: r4) :
    parseMembers (f + 1) ('"' :: r) = some (.cons k v .nil, r4) := by
  rw [parseMembers.eq_2]
  simp only [hk, hc, hv, hr]

theorem parseMembers_more (f : Nat) (r k r1 r2 : List Char) (v : JVal) (r3 r4 : List Char)
    (hk : parseStringBody r = some (k, r1)) (hc : skipWs r1 = ':' :: r2)
    (hv : parseVal f r2 = some (v, r3)) (hr : skipWs r3 = ',' :: r4) :
    parseMembers (f + 1) ('"' :: r) =
      (match parseMembers f (skipWs r4) with
       | none => none
       | some (ms, r5) => some (.cons k v ms, r5)) := by
  rw [parseMembers.eq_2]
  simp only [hk, hc, hv, hr]

theorem needF_pos (d : JVal) : 1 ≤ needF d := by
  cases d <;> simp [needF]

theorem needL_pos (its : JItems) : 1 ≤ needL its := by
  cases its
  all_goals simp [needL]
  all_goals omega

theorem needM_pos (ms : JMembers) : 1 ≤ needM ms := by
  cases ms
  all_goals simp [needM]
  all_goals omega

theorem numberStop_nl (X : List Char) : numberStop ('\n' :: X) = true := rfl

theorem numberStop_comma (X : List Char) : numberStop (',' :: X) = true := rfl

/-- The central round-trip: with enough fuel, parsing a `dumps` rendering (as
a whitespace-skipped view of the input) recovers exactly the dumped value, the
dumped element list, or the dumped member list. -/
theorem parse_dump : ∀ f : Nat,
    (∀ (d : JVal) (ind : Nat) (s rest : List Char),
      needF d ≤ f → numberStop rest = true → skipWs s = dumpVal ind d ++ rest →
      parseVal f s = some (d, rest)) ∧
    (∀ (x : JVal) (xs : JItems) (indE indC : Nat) (rest : List Char),
      needL (.cons x xs) ≤ f → numberStop rest = true →
      parseElems f (dumpVal indE x ++ (dumpItems indE xs ++
        ('\n' :: (nSpaces indC ++ (']' :: rest))))) = some (.cons x xs, rest)) ∧
    (∀ (k : List Char) (v : JVal) (ms : JMembers) (indE indC : Nat) (rest : List Char),
      needM (.cons k v ms) ≤ f → numberStop rest = true →
      parseMembers f (strLit k ++ (':' :: ' ' :: (dumpVal indE v ++ (dumpMembers indE ms ++
        ('\n' :: (nSpaces indC ++ ('}' :: rest))))))) = some (.cons k v ms, rest)) := by
  intro f
  induction f with
  | zero =>
    refine ⟨?_, ?_, ?_⟩
    · intro d ind s rest hneed _ _
      have := needF_pos d
      omega
    · intro x xs indE indC rest hneed _
      have := needL_pos (.cons x xs)
      omega
    · intro k v ms indE indC rest hneed _
      have := needM_pos (.cons k v ms)
      omega
  | succ f ihf =>
    obtain ⟨ihV, ihL, ihM⟩ := ihf
    refine ⟨?_, ?_, ?_⟩
    · intro d ind s rest hneed hstop hs
      cases d with
      | null =>
        simp only [dumpVal, List.cons_append, List.nil_append] at hs
        exact parseVal_null f s rest hs
      | boolean b =>
        cases b with
        | false =>
          simp only [dumpVal, List.cons_append, List.nil_append] at hs
          exact parseVal_false f s rest hs
        | true =>
          simp only [dumpVal, List.cons_append, List.nil_append] at hs
          exact parseVal_true f s rest hs
      | num i =>
        simp only [dumpVal] at hs
        have hf : floatNext rest = false := floatNext_of_stop hstop
        by_cases hneg : i < 0
        · rw [intChars, if_pos hneg, List.cons_append] at hs
          rw [parseVal_minus f s _ hs, parseNat_natChars _ _ hstop]
          simp [hf]
          rw [abs_of_neg hneg, neg_neg]
        · rw [intChars, if_neg hneg] at hs
          obtain ⟨d0, ds, hds, hdig, _⟩ := natChars_head i.natAbs
          rw [hds, List.cons_append] at hs
          rw [parseVal_digit f s d0 _ hs hdig, ← List.cons_append, ← hds,
            parseNat_natChars _ _ hstop]
          have hval : ((i.natAbs : Int)) = i := by omega
          simp [hf, hval]
      | str s0 =>
        simp only [dumpVal, strLit, List.cons_append, List.append_assoc, List.nil_append] at hs
        rw [parseVal_quote f s _ hs, parseStringBody_escSeq]
        rfl
      | arr its =>
        cases its with
        | nil =>
          simp only [dumpVal, List.cons_append, List.nil_append] at hs
          exact parseVal_arr_nil f s _ rest hs (skipWs_cons_false (by decide))
        | cons x xs =>
          simp only [dumpVal, List.cons_append, List.append_assoc, List.nil_append] at hs
          obtain ⟨c2, cs2, hx, hxw, hxb, _⟩ := dumpVal_head x (ind + 2)
          have hr : skipWs ('\n' :: (nSpaces (ind + 2) ++ (dumpVal (ind + 2) x ++
              (dumpItems (ind + 2) xs ++ ('\n' :: (nSpaces ind ++ (']' :: rest))))))) =
              c2 :: (cs2 ++ (dumpItems (ind + 2) xs ++
                ('\n' :: (nSpaces ind ++ (']' :: rest))))) := by
            rw [skipWs_cons_true (by decide), skipWs_nSpaces, hx, List.cons_append,
              skipWs_cons_false hxw]
          rw [parseVal_arr_go f s _ c2 _ hs hr hxb]
          have hback : c2 :: (cs2 ++ (dumpItems (ind + 2) xs ++
              ('\n' :: (nSpaces ind ++ (']' :: rest))))) =
              dumpVal (ind + 2) x ++ (dumpItems (ind + 2) xs ++
                ('\n' :: (nSpaces ind ++ (']' :: rest)))) := by
            rw [hx, List.cons_append]
          rw [hback, ihL x xs (ind + 2) ind rest (by simp [needF] at hneed; omega) hstop]
          rfl
      | obj ms =>
        cases ms with
        | nil =>
          simp only [dumpVal, List.cons_append, List.nil_append] at hs
          exact parseVal_obj_nil f s _ rest hs (skipWs_cons_false (by decide))
        | cons k v ms' =>
          simp only [dumpVal, List.cons_append, List.append_assoc, List.nil_append] at hs
          have hstr : strLit k ++ (':' :: ' ' :: (dumpVal (ind + 2) v ++
              (dumpMembers (ind + 2) ms' ++ ('\n' :: (nSpaces ind ++ ('}' :: rest)))))) =
              '"' :: (escSeq k ++ ('"' :: (':' :: ' ' :: (dumpVal (ind + 2) v ++
                (dumpMembers (ind + 2) ms' ++ ('\n' :: (nSpaces ind ++ ('}' :: rest)))))))) := by
            simp [strLit]
          have hr : skipWs ('\n' :: (nSpaces (ind + 2) ++ (strLit k ++ (':' :: ' ' ::
              (dumpVal (ind + 2) v ++ (dumpMembers (ind + 2) ms' ++
                ('\n' :: (nSpaces ind ++ ('}' :: rest))))))))) =
              '"' :: (escSeq k ++ ('"' :: (':' :: ' ' :: (dumpVal (ind + 2) v ++
                (dumpMembers (ind + 2) ms' ++ ('\n' :: (nSpaces ind ++ ('}' :: rest)))))))) := by
            rw [skipWs_cons_true (by decide), skipWs_nSpaces, hstr, skipWs_cons_false (by decide)]
          rw [parseVal_obj_go f s _ '"' _ hs hr (by decide), ← hstr,
            ihM k v ms' (ind + 2) ind rest (by simp [needF] at hneed; omega) hstop]
          rfl
    · intro x xs indE indC rest hneed hstop
      have hstop0 : numberStop (dumpItems indE xs ++
          ('\n' :: (nSpaces indC ++ (']' :: rest)))) = true := by
        cases xs with
        | nil => simp only [dumpItems, List.nil_append, numberStop_nl]
        | cons y ys => simp only [dumpItems, List.cons_append, numberStop_comma]
      have hv : parseVal f (dumpVal indE x ++ (dumpItems indE xs ++
          ('\n' :: (nSpaces indC ++ (']' :: rest))))) =
          some (x, dumpItems indE xs ++ ('\n' :: (nSpaces indC ++ (']' :: rest)))) :=
        ihV x indE _ _ (by simp [needL] at hneed; omega) hstop0 (skipWs_dump _ _ _)
      cases xs with
      | nil =>
        simp only [dumpItems, List.nil_append] at hv ⊢
        exact parseElems_done f _ x _ rest hv
          (by rw [skipWs_cons_true (by decide), skipWs_nSpaces, skipWs_cons_false (by decide)])
      | cons y ys =>
        simp only [dumpItems, List.cons_append, List.append_assoc] at hv ⊢
        rw [parseElems_comma f _ x _ ('\n' :: (nSpaces indE ++ (dumpVal indE y ++
            (dumpItems indE ys ++ ('\n' :: (nSpaces indC ++ (']' :: rest))))))) hv
          (skipWs_cons_false (by decide))]
        have hsk : skipWs ('\n' :: (nSpaces indE ++ (dumpVal indE y ++ (dumpItems indE ys ++
            ('\n' :: (nSpaces indC ++ (']' :: rest))))))) =
            dumpVal indE y ++ (dumpItems indE ys ++
              ('\n' :: (nSpaces indC ++ (']' :: rest)))) := by
          rw [skipWs_cons_true (by decide), skipWs_nSpaces, skipWs_dump]
        rw [hsk, ihL y ys indE indC rest (by simp [needL] at hneed ⊢; omega) hstop]
    · intro k v ms indE indC rest hneed hstop
      have hgoal : strLit k ++ (':' :: ' ' :: (dumpVal indE v ++ (dumpMembers indE ms ++
          ('\n' :: (nSpaces indC ++ ('}' :: rest)))))) =
          '"' :: (escSeq k ++ ('"' :: (':' :: ' ' :: (dumpVal indE v ++ (dumpMembers indE ms ++
            ('\n' :: (nSpaces indC ++ ('}' :: rest)))))))) := by
        simp [strLit]
      rw [hgoal]
      have hstop1 : numberStop (dumpMembers indE ms ++
          ('\n' :: (nSpaces indC ++ ('}' :: rest)))) = true := by
        cases ms with
        | nil => simp only [dumpMembers, List.nil_append, numberStop_nl]
        | cons k2 v2 ms2 => simp only [dumpMembers, List.cons_append, numberStop_comma]
      have hv : parseVal f (' ' :: (dumpVal indE v ++ (dumpMembers indE ms ++
          ('\n' :: (nSpaces indC ++ ('}' :: rest)))))) =
          some (v, dumpMembers indE ms ++ ('\n' :: (nSpaces indC ++ ('}' :: rest)))) :=
        ihV v indE _ _ (by simp [needM] at hneed; omega) hstop1
          (by rw [skipWs_cons_true (by decide), skipWs_dump])
      cases ms with
      | nil =>
        simp only [dumpMembers, List.nil_append] at hv ⊢
        exact parseMembers_last f _ k _ _ v _ rest (parseStringBody_escSeq k _)
          (skipWs_cons_false (by decide)) hv
          (by rw [skipWs_cons_true (by decide), skipWs_nSpaces, skipWs_cons_false (by decide)])
      | cons k2 v2 ms2 =>
        simp only [dumpMembers, List.cons_append, List.append_assoc] at hv ⊢
        rw [parseMembers_more f _ k _ _ v _ ('\n' :: (nSpaces indE ++ (strLit k2 ++
            (':' :: ' ' :: (dumpVal indE v2 ++ (dumpMembers indE ms2 ++
              ('\n' :: (nSpaces indC ++ ('}' :: rest)))))))))
          (parseStringBody_escSeq k _) (skipWs_cons_false (by decide)) hv
          (skipWs_cons_false (by decide))]
        have hsk : skipWs ('\n' :: (nSpaces indE ++ (strLit k2 ++ (':' :: ' ' ::
            (dumpVal indE v2 ++ (dumpMembers indE ms2 ++
              ('\n' :: (nSpaces indC ++ ('}' :: rest))))))))) =
            strLit k2 ++ (':' :: ' ' :: (dumpVal indE v2 ++ (dumpMembers indE ms2 ++
              ('\n' :: (nSpaces indC ++ ('}' :: rest)))))) := by
          rw [skipWs_cons_true (by decide), skipWs_nSpaces, skipWs_strLit]
        rw [hsk, ihM k2 v2 ms2 indE indC rest (by simp [needM] at hneed ⊢; omega) hstop]

theorem skipWs_strLit_self (k : List Char) : skipWs (strLit k) = strLit k := by
  conv_lhs => rw [strLit]
  rw [skipWs_cons_false (by decide)]
  rfl

/-- `json.loads` inverts `json.dumps(..., indent=2) + "\n"` — exactly the
text the script writes back. -/
theorem loads_dumps (d : JVal) : loads (dumps d ++ ['\n']) = some d := by
  have hp : parseVal ((dumps d ++ ['\n']).length + 1) (dumps d ++ ['\n']) = some (d, ['\n']) := by
    apply (parse_dump _).1 d 0 _ _ ?_ (by decide) ?_
    · have := needF_le_dump d 0
      simp only [dumps, List.length_append]
      omega
    · exact skipWs_dump d 0 _
  rw [loads, hp]
  rfl

/-- `json.loads` decodes a string literal produced by `json.dumps` back to
the original string. -/
theorem loads_strLit (s0 : List Char) : loads (strLit s0) = some (.str s0) := by
  have hp : parseVal ((strLit s0).length + 1) (strLit s0) = some (.str s0, []) := by
    apply (parse_dump _).1 (.str s0) 0 _ _ ?_ (by decide) ?_
    · have := needF_le_dump (.str s0) 0
      simp only [dumpVal] at this
      omega
    · rw [skipWs_strLit_self]
      simp [dumpVal]
  rw [loads, hp]
  rfl

/-! Ordered-dict (`JMembers`) operation lemmas. -/

/-- Induction on the member list alone (values untouched). -/
theorem JMembers.indOn {P : JMembers → Prop} (ms : JMembers) (hnil : P .nil)
    (hcons : ∀ k v ms', P ms' → P (.cons k v ms')) : P ms :=
  match ms with
  | .nil => hnil
  | .cons k v ms' => hcons k v ms' (JMembers.indOn ms' hnil hcons)

theorem lookup_setKeyAll (ms : JMembers) (k : List Char) (v : JVal)
    (h : hasKey ms k = true) : jLookup (setKeyAll ms k v) k = some v := by
  induction ms using JMembers.indOn with
  | hnil => simp [hasKey] at h
  | hcons k0 v0 ms' ih =>
    by_cases hk : k0 = k
    · subst hk
      simp [setKeyAll, jLookup]
    · rw [hasKey] at h
      simp [hk] at h
      simp [setKeyAll, jLookup, hk, ih h]

theorem lookup_appendMember_self (ms : JMembers) (k : List Char) (v : JVal)
    (h : hasKey ms k = false) : jLookup (appendMember ms k v) k = some v := by
  induction ms using JMembers.indOn with
  | hnil => simp [appendMember, jLookup]
  | hcons k0 v0 ms' ih =>
    rw [hasKey] at h
    simp at h
    simp [appendMember, jLookup, h.1, ih h.2]

/-- After `d[key] = v`, looking up `key` gives `v`. -/
theorem lookup_setKey_self (ms : JMembers) (k : List Char) (v : JVal) :
    jLookup (setKey ms k v) k = some v := by
  rw [setKey]
  by_cases h : hasKey ms k = true
  · rw [if_pos h]
    exact lookup_setKeyAll ms k v h
  · rw [if_neg h]
    exact lookup_appendMember_self ms k v (by simpa using h)

theorem lookup_setKeyAll_other (ms : JMembers) (k k' : List Char) (v : JVal) (hne : k' ≠ k) :
    jLookup (setKeyAll ms k v) k' = jLookup ms k' := by
  induction ms using JMembers.indOn with
  | hnil => rfl
  | hcons k0 v0 ms' ih =>
    by_cases hk : k0 = k
    · subst hk
      simp only [setKeyAll, if_pos rfl, jLookup, ih]
      rw [if_neg (fun e => hne e.symm), if_neg (fun e => hne e.symm)]
    · simp only [setKeyAll, hk, if_false, ite_false, jLookup, ih]

theorem lookup_appendMember_other (ms : JMembers) (k k' : List Char) (v : JVal) (hne : k' ≠ k) :
    jLookup (appendMember ms k v) k' = jLookup ms k' := by
  induction ms using JMembers.indOn with
  | hnil =>
    simp only [appendMember, jLookup]
    rw [if_neg (fun e => hne e.symm)]
  | hcons k0 v0 ms' ih =>
    simp only [appendMember, jLookup, ih]

/-- `d[key] = v` does not change lookups of other keys. -/
theorem lookup_setKey_other (ms : JMembers) (k k' : List Char) (v : JVal) (hne : k' ≠ k) :
    jLookup (setKey ms k v) k' = jLookup ms k' := by
  rw [setKey]
  by_cases h : hasKey ms k = true
  · rw [if_pos h]
    exact lookup_setKeyAll_other ms k k' v hne
  · rw [if_neg h]
    exact lookup_appendMember_other ms k k' v hne

theorem hasKey_setKeyAll (ms : JMembers) (k : List Char) (v : JVal) :
    hasKey (setKeyAll ms k v) k = hasKey ms k := by
  induction ms using JMembers.indOn with
  | hnil => rfl
  | hcons k0 v0 ms' ih =>
    by_cases hk : k0 = k
    · subst hk
      simp [setKeyAll, hasKey]
    · simp [setKeyAll, hasKey, hk, ih]

theorem hasKey_appendMember (ms : JMembers) (k : List Char) (v : JVal) :
    hasKey (appendMember ms k v) k = true := by
  induction ms using JMembers.indOn with
  | hnil => simp [appendMember, hasKey]
  | hcons k0 v0 ms' ih => simp [appendMember, hasKey, ih]

theorem setKeyAll_idem (ms : JMembers) (k : List Char) (v : JVal) :
    setKeyAll (setKeyAll ms k v) k v = setKeyAll ms k v := by
  induction ms using JMembers.indOn with
  | hnil => rfl
  | hcons k0 v0 ms' ih =>
    by_cases hk : k0 = k
    · subst hk
      simp [setKeyAll, ih]
    · simp [setKeyAll, hk, ih]

theorem setKeyAll_appendMember (ms : JMembers) (k : List Char) (v : JVal)
    (h : hasKey ms k = false) : setKeyAll (appendMember ms k v) k v = appendMember ms k v := by
  induction ms using JMembers.indOn with
  | hnil => simp [appendMember, setKeyAll]
  | hcons k0 v0 ms' ih =>
    rw [hasKey] at h
    simp at h
    simp [appendMember, setKeyAll, h.1, ih h.2]

/-- Setting the same key to the same value twice is the same as once. -/
theorem setKey_idem (ms : JMembers) (k : List Char) (v : JVal) :
    setKey (setKey ms k v) k v = setKey ms k v := by
  by_cases h : hasKey ms k = true
  · have h1 : setKey ms k v = setKeyAll ms k v := by rw [setKey, if_pos h]
    rw [h1, setKey, hasKey_setKeyAll, if_pos h, setKeyAll_idem]
  · have hf : hasKey ms k = false := by simpa using h
    have h1 : setKey ms k v = appendMember ms k v := by rw [setKey, if_neg h]
    rw [h1, setKey, hasKey_appendMember, if_pos rfl, setKeyAll_appendMember ms k v hf]

/-- Every entry at key `k` already carries value `v`. -/
def fixedAt (k : List Char) (v : JVal) : JMembers → Bool
  | .nil => true
  | .cons k0 v0 ms => (if k0 = k then decide (v0 = v) else true) && fixedAt k v ms

theorem fixedAt_of_not_hasKey {Y : JMembers} {k : List Char} (v : JVal)
    (h : hasKey Y k = false) : fixedAt k v Y = true := by
  induction Y using JMembers.indOn with
  | hnil => rfl
  | hcons k0 v0 ms' ih =>
    rw [hasKey] at h
    simp at h
    simp [fixedAt, h.1, ih h.2]

theorem setKeyAll_of_fixed {Y : JMembers} {k : List Char} {v : JVal}
    (h : fixedAt k v Y = true) : setKeyAll Y k v = Y := by
  induction Y using JMembers.indOn with
  | hnil => rfl
  | hcons k0 v0 ms' ih =>
    rw [fixedAt] at h
    simp at h
    by_cases hk : k0 = k
    · subst hk
      have hv := h.1.resolve_left (fun hn => hn rfl)
      simp [setKeyAll, hv, ih h.2]
    · simp [setKeyAll, hk, ih h.2]

theorem fixed_setKeyAll_self (Y : JMembers) (k : List Char) (v : JVal) :
    fixedAt k v (setKeyAll Y k v) = true := by
  induction Y using JMembers.indOn with
  | hnil => rfl
  | hcons k0 v0 ms' ih =>
    by_cases hk : k0 = k
    · subst hk
      simp [setKeyAll, fixedAt, ih]
    · simp [setKeyAll, fixedAt, hk, ih]

theorem fixed_appendMember_self {Y : JMembers} {k : List Char} {v : JVal}
    (h : fixedAt k v Y = true) : fixedAt k v (appendMember Y k v) = true := by
  induction Y using JMembers.indOn with
  | hnil => simp [appendMember, fixedAt]
  | hcons k0 v0 ms' ih =>
    rw [fixedAt] at h
    simp at h
    by_cases hk : k0 = k
    · subst hk
      simp [appendMember, fixedAt, h.1.resolve_left (fun hn => hn rfl), ih h.2]
    · simp [appendMember, fixedAt, hk, ih h.2]

theorem fixed_setKey_self (Y : JMembers) (k : List Char) (v : JVal) :
    fixedAt k v (setKey Y k v) = true := by
  rw [setKey]
  by_cases h : hasKey Y k = true
  · rw [if_pos h]
    exact fixed_setKeyAll_self Y k v
  · rw [if_neg h]
    exact fixed_appendMember_self (fixedAt_of_not_hasKey v (by simpa using h))

theorem fixed_setKeyAll_other {Y : JMembers} {k p : List Char} {v w : JVal} (hne : p ≠ k)
    (h : fixedAt k v Y = true) : fixedAt k v (setKeyAll Y p w) = true := by
  induction Y using JMembers.indOn with
  | hnil => rfl
  | hcons k0 v0 ms' ih =>
    rw [fixedAt] at h
    simp at h
    by_cases hk : k0 = p
    · subst hk
      simp [setKeyAll, fixedAt, hne, ih h.2]
    · by_cases hk2 : k0 = k
      · subst hk2
        simp [setKeyAll, fixedAt, hk, h.1.resolve_left (fun hn => hn rfl), ih h.2]
      · simp [setKeyAll, fixedAt, hk, hk2, ih h.2]

theorem fixed_appendMember_other {Y : JMembers} {k p : List Char} {v w : JVal} (hne : p ≠ k)
    (h : fixedAt k v Y = true) : fixedAt k v (appendMember Y p w) = true := by
  induction Y using JMembers.indOn with
  | hnil => simp [appendMember, fixedAt, hne]
  | hcons k0 v0 ms' ih =>
    rw [fixedAt] at h
    simp at h
    by_cases hk2 : k0 = k
    · subst hk2
      simp [appendMember, fixedAt, h.1.resolve_left (fun hn => hn rfl), ih h.2]
    · simp [appendMember, fixedAt, hk2, ih h.2]

theorem fixed_setKey_other {Y : JMembers} {k p : List Char} {v w : JVal} (hne : p ≠ k)
    (h : fixedAt k v Y = true) : fixedAt k v (setKey Y p w) = true := by
  rw [setKey]
  by_cases hh : hasKey Y p = true
  · rw [if_pos hh]
    exact fixed_setKeyAll_other hne h
  · rw [if_neg hh]
    exact fixed_appendMember_other hne h

theorem hasKey_setKey_self (Y : JMembers) (k : List Char) (v : JVal) :
    hasKey (setKey Y k v) k = true := by
  rw [setKey]
  by_cases h : hasKey Y k = true
  · rw [if_pos h, hasKey_setKeyAll]
    exact h
  · rw [if_neg h]
    exact hasKey_appendMember Y k v

theorem hasKey_setKeyAll_other (Y : JMembers) (k p : List Char) (w : JVal) (hne : p ≠ k) :
    hasKey (setKeyAll Y p w) k = hasKey Y k := by
  induction Y using JMembers.indOn with
  | hnil => rfl
  | hcons k0 v0 ms' ih =>
    by_cases hk : k0 = p
    · subst hk
      simp [setKeyAll, hasKey, ih]
    · simp [setKeyAll, hasKey, hk, ih]

theorem hasKey_appendMember_other (Y : JMembers) (k p : List Char) (w : JVal) (hne : p ≠ k) :
    hasKey (appendMember Y p w) k = hasKey Y k := by
  induction Y using JMembers.indOn with
  | hnil =>
    simp [appendMember, hasKey]
    exact fun e => absurd e hne
  | hcons k0 v0 ms' ih => simp [appendMember, hasKey, ih]

theorem hasKey_setKey_other (Y : JMembers) (k p : List Char) (w : JVal) (hne : p ≠ k) :
    hasKey (setKey Y p w) k = hasKey Y k := by
  rw [setKey]
  by_cases h : hasKey Y p = true
  · rw [if_pos h]
    exact hasKey_setKeyAll_other Y k p w hne
  · rw [if_neg h]
    exact hasKey_appendMember_other Y k p w hne

/-- `setKey` is the identity when the key is present and all its entries
already carry the value. -/
theorem setKey_of_fixed {Y : JMembers} {k : List Char} {v : JVal}
    (hk : hasKey Y k = true) (h : fixedAt k v Y = true) : setKey Y k v = Y := by
  rw [setKey, if_pos hk]
  exact setKeyAll_of_fixed h

/-- Characterization of `update_json_version`'s document edit on objects: the
top-level `"version"` is set, and whenever the result has an object
`"packages"` with an object `""` member, that member's `"version"` is set
too. -/
theorem update_json_doc_obj (ms : JMembers) (v : List Char) :
    ∃ ms2, update_json_doc (.obj ms) v = some (.obj ms2) ∧
      jLookup ms2 verKey = some (.str v) ∧
      (∀ pkgs root, jLookup ms2 pkgKey = some (.obj pkgs) →
        jLookup pkgs [] = some (.obj root) → jLookup root verKey = some (.str v)) := by
  cases hp : jLookup (setKey ms verKey (.str v)) pkgKey with
  | none =>
    refine ⟨setKey ms verKey (.str v), ?_, lookup_setKey_self ms verKey (.str v), ?_⟩
    · simp only [update_json_doc, hp]
    · intro pkgs root hpk hrt
      rw [hp] at hpk
      cases hpk
  | some w =>
    cases w with
    | null =>
      refine ⟨setKey ms verKey (.str v), ?_, lookup_setKey_self ms verKey (.str v), ?_⟩
      · simp only [update_json_doc, hp]
      · intro pkgs root hpk hrt
        rw [hp] at hpk
        simp at hpk
    | boolean b =>
      refine ⟨setKey ms verKey (.str v), ?_, lookup_setKey_self ms verKey (.str v), ?_⟩
      · simp only [update_json_doc, hp]
      · intro pkgs root hpk hrt
        rw [hp] at hpk
        simp at hpk
    | num i =>
      refine ⟨setKey ms verKey (.str v), ?_, lookup_setKey_self ms verKey (.str v), ?_⟩
      · simp only [update_json_doc, hp]
      · intro pkgs root hpk hrt
        rw [hp] at hpk
        simp at hpk
    | str s0 =>
      refine ⟨setKey ms verKey (.str v), ?_, lookup_setKey_self ms verKey (.str v), ?_⟩
      · simp only [update_json_doc, hp]
      · intro pkgs root hpk hrt
        rw [hp] at hpk
        simp at hpk
    | arr its =>
      refine ⟨setKey ms verKey (.str v), ?_, lookup_setKey_self ms verKey (.str v), ?_⟩
      · simp only [update_json_doc, hp]
      · intro pkgs root hpk hrt
        rw [hp] at hpk
        simp at hpk
    | obj pkgs =>
      cases hr : jLookup pkgs ([] : List Char) with
      | none =>
        refine ⟨setKey ms verKey (.str v), ?_, lookup_setKey_self ms verKey (.str v), ?_⟩
        · simp only [update_json_doc, hp, hr]
        · intro pkgs' root hpk hrt
          rw [hp] at hpk
          have hpp : pkgs' = pkgs := by
            injection hpk with h1
            injection h1 with h2
            exact h2.symm
          subst hpp
          rw [hr] at hrt
          cases hrt
      | some w2 =>
        cases w2 with
        | null =>
          refine ⟨setKey ms verKey (.str v), ?_, lookup_setKey_self ms verKey (.str v), ?_⟩
          · simp only [update_json_doc, hp, hr]
          · intro pkgs' root hpk hrt
            rw [hp] at hpk
            have hpp : pkgs' = pkgs := by
              injection hpk with h1
              injection h1 with h2
              exact h2.symm
            subst hpp
            rw [hr] at hrt
            simp at hrt
        | boolean b =>
          refine ⟨setKey ms verKey (.str v), ?_, lookup_setKey_self ms verKey (.str v), ?_⟩
          · simp only [update_json_doc, hp, hr]
          · intro pkgs' root hpk hrt
            rw [hp] at hpk
            have hpp : pkgs' = pkgs := by
              injection hpk with h1
              injection h1 with h2
              exact h2.symm
            subst hpp
            rw [hr] at hrt
            simp at hrt
        | num i =>
          refine ⟨setKey ms verKey (.str v), ?_, lookup_setKey_self ms verKey (.str v), ?_⟩
          · simp only [update_json_doc, hp, hr]
          · intro pkgs' root hpk hrt
            rw [hp] at hpk
            have hpp : pkgs' = pkgs := by
              injection hpk with h1
              injection h1 with h2
              exact h2.symm
            subst hpp
            rw [hr] at hrt
            simp at hrt
        | str s0 =>
          refine ⟨setKey ms verKey (.str v), ?_, lookup_setKey_self ms verKey (.str v), ?_⟩
          · simp only [update_json_doc, hp, hr]
          · intro pkgs' root hpk hrt
            rw [hp] at hpk
            have hpp : pkgs' = pkgs := by
              injection hpk with h1
              injection h1 with h2
              exact h2.symm
            subst hpp
            rw [hr] at hrt
            simp at hrt
        | arr its =>
          refine ⟨setKey ms verKey (.str v), ?_, lookup_setKey_self ms verKey (.str v), ?_⟩
          · simp only [update_json_doc, hp, hr]
          · intro pkgs' root hpk hrt
            rw [hp] at hpk
            have hpp : pkgs' = pkgs := by
              injection hpk with h1
              injection h1 with h2
              exact h2.symm
            subst hpp
            rw [hr] at hrt
            simp at hrt
        | obj root =>
          refine ⟨setKey (setKey ms verKey (.str v)) pkgKey
            (.obj (setKey pkgs [] (.obj (setKey root verKey (.str v))))), ?_, ?_, ?_⟩
          · simp only [update_json_doc, hp, hr]
          · rw [lookup_setKey_other _ _ _ _ (by decide)]
            exact lookup_setKey_self ms verKey (.str v)
          · intro pkgs' root' hpk hrt
            rw [lookup_setKey_self] at hpk
            have hpp : pkgs' = setKey pkgs [] (.obj (setKey root verKey (.str v))) := by
              injection hpk with h1
              injection h1 with h2
              exact h2.symm
            subst hpp
            rw [lookup_setKey_self] at hrt
            have hrr : root' = setKey root verKey (.str v) := by
              injection hrt with h1
              injection h1 with h2
              exact h2.symm
            subst hrr
            exact lookup_setKey_self root verKey (.str v)

/-- The document edit is idempotent: editing a document that is already the
result of the same edit changes nothing. -/
theorem update_json_doc_idem (ms ms2 : JMembers) (v : List Char)
    (h : update_json_doc (.obj ms) v = some (.obj ms2)) :
    update_json_doc (.obj ms2) v = some (.obj ms2) := by
  have hA : setKey (setKey ms verKey (.str v)) verKey (.str v) = setKey ms verKey (.str v) :=
    setKey_idem ms verKey (.str v)
  cases hp : jLookup (setKey ms verKey (.str v)) pkgKey with
  | none =>
    have hv0 : update_json_doc (.obj ms) v = some (.obj (setKey ms verKey (.str v))) := by
      simp only [update_json_doc, hp]
    rw [hv0] at h
    have hms2 : ms2 = setKey ms verKey (.str v) := by
      injection h with h1
      injection h1 with h2
      exact h2.symm
    subst hms2
    simp only [update_json_doc, hA, hp]
  | some w =>
    cases w with
    | null =>
      have hv0 : update_json_doc (.obj ms) v = some (.obj (setKey ms verKey (.str v))) := by
        simp only [update_json_doc, hp]
      rw [hv0] at h
      have hms2 : ms2 = setKey ms verKey (.str v) := by
        injection h with h1
        injection h1 with h2
        exact h2.symm
      subst hms2
      simp only [update_json_doc, hA, hp]
    | boolean b =>
      have hv0 : update_json_doc (.obj ms) v = some (.obj (setKey ms verKey (.str v))) := by
        simp only [update_json_doc, hp]
      rw [hv0] at h
      have hms2 : ms2 = setKey ms verKey (.str v) := by
        injection h with h1
        injection h1 with h2
        exact h2.symm
      subst hms2
      simp only [update_json_doc, hA, hp]
    | num i =>
      have hv0 : update_json_doc (.obj ms) v = some (.obj (setKey ms verKey (.str v))) := by
        simp only [update_json_doc, hp]
      rw [hv0] at h
      have hms2 : ms2 = setKey ms verKey (.str v) := by
        injection h with h1
        injection h1 with h2
        exact h2.symm
      subst hms2
      simp only [update_json_doc, hA, hp]
    | str s0 =>
      have hv0 : update_json_doc (.obj ms) v = some (.obj (setKey ms verKey (.str v))) := by
        simp only [update_json_doc, hp]
      rw [hv0] at h
      have hms2 : ms2 = setKey ms verKey (.str v) := by
        injection h with h1
        injection h1 with h2
        exact h2.symm
      subst hms2
      simp only [update_json_doc, hA, hp]
    | arr its =>
      have hv0 : update_json_doc (.obj ms) v = some (.obj (setKey ms verKey (.str v))) := by
        simp only [update_json_doc, hp]
      rw [hv0] at h
      have hms2 : ms2 = setKey ms verKey (.str v) := by
        injection h with h1
        injection h1 with h2
        exact h2.symm
      subst hms2
      simp only [update_json_doc, hA, hp]
    | obj pkgs =>
      cases hr : jLookup pkgs ([] : List Char) with
      | none =>
        have hv0 : update_json_doc (.obj ms) v = some (.obj (setKey ms verKey (.str v))) := by
          simp only [update_json_doc, hp, hr]
        rw [hv0] at h
        have hms2 : ms2 = setKey ms verKey (.str v) := by
          injection h with h1
          injection h1 with h2
          exact h2.symm
        subst hms2
        simp only [update_json_doc, hA, hp, hr]
      | some w2 =>
        cases w2 with
        | null =>
          have hv0 : update_json_doc (.obj ms) v = some (.obj (setKey ms verKey (.str v))) := by
            simp only [update_json_doc, hp, hr]
          rw [hv0] at h
          have hms2 : ms2 = setKey ms verKey (.str v) := by
            injection h with h1
            injection h1 with h2
            exact h2.symm
          subst hms2
          simp only [update_json_doc, hA, hp, hr]
        | boolean b =>
          have hv0 : update_json_doc (.obj ms) v = some (.obj (setKey ms verKey (.str v))) := by
            simp only [update_json_doc, hp, hr]
          rw [hv0] at h
          have hms2 : ms2 = setKey ms verKey (.str v) := by
            injection h with h1
            injection h1 with h2
            exact h2.symm
          subst hms2
          simp only [update_json_doc, hA, hp, hr]
        | num i =>
          have hv0 : update_json_doc (.obj ms) v = some (.obj (setKey ms verKey (.str v))) := by
            simp only [update_json_doc, hp, hr]
          rw [hv0] at h
          have hms2 : ms2 = setKey ms verKey (.str v) := by
            injection h with h1
            injection h1 with h2
            exact h2.symm
          subst hms2
          simp only [update_json_doc, hA, hp, hr]
        | str s0 =>
          have hv0 : update_json_doc (.obj ms) v = some (.obj (setKey ms verKey (.str v))) := by
            simp only [update_json_doc, hp, hr]
          rw [hv0] at h
          have hms2 : ms2 = setKey ms verKey (.str v) := by
            injection h with h1
            injection h1 with h2
            exact h2.symm
          subst hms2
          simp only [update_json_doc, hA, hp, hr]
        | arr its =>
          have hv0 : update_json_doc (.obj ms) v = some (.obj (setKey ms verKey (.str v))) := by
            simp only [update_json_doc, hp, hr]
          rw [hv0] at h
          have hms2 : ms2 = setKey ms verKey (.str v) := by
            injection h with h1
            injection h1 with h2
            exact h2.symm
          subst hms2
          simp only [update_json_doc, hA, hp, hr]
        | obj root =>
          have hv0 : update_json_doc (.obj ms) v =
              some (.obj (setKey (setKey ms verKey (.str v)) pkgKey
                (.obj (setKey pkgs [] (.obj (setKey root verKey (.str v))))))) := by
            simp only [update_json_doc, hp, hr]
          rw [hv0] at h
          have hms2 : ms2 = setKey (setKey ms verKey (.str v)) pkgKey
              (.obj (setKey pkgs [] (.obj (setKey root verKey (.str v))))) := by
            injection h with h1
            injection h1 with h2
            exact h2.symm
          subst hms2
          have hkB : hasKey (setKey (setKey ms verKey (.str v)) pkgKey
              (.obj (setKey pkgs [] (.obj (setKey root verKey (.str v)))))) verKey = true := by
            rw [hasKey_setKey_other _ _ _ _ (by decide)]
            exact hasKey_setKey_self ms verKey (.str v)
          have hfB : fixedAt verKey (.str v) (setKey (setKey ms verKey (.str v)) pkgKey
              (.obj (setKey pkgs [] (.obj (setKey root verKey (.str v)))))) = true :=
            fixed_setKey_other (by decide) (fixed_setKey_self ms verKey (.str v))
          have hB := setKey_of_fixed hkB hfB
          have hpB : jLookup (setKey (setKey ms verKey (.str v)) pkgKey
              (.obj (setKey pkgs [] (.obj (setKey root verKey (.str v)))))) pkgKey =
              some (.obj (setKey pkgs [] (.obj (setKey root verKey (.str v))))) :=
            lookup_setKey_self _ _ _
          have hrP : jLookup (setKey pkgs [] (.obj (setKey root verKey (.str v))))
              ([] : List Char) = some (.obj (setKey root verKey (.str v))) :=
            lookup_setKey_self _ _ _
          simp only [update_json_doc, hB, hpB, hrP, setKey_idem]

/-- Successful runs of `update_json_version` decompose into parse, document
edit, and re-serialization, and the written text parses back to the edited
document. -/
theorem update_json_version_inv {content v out : List Char}
    (h : update_json_version content v = some out) :
    ∃ ms ms2, loads content = some (.obj ms) ∧
      update_json_doc (.obj ms) v = some (.obj ms2) ∧
      out = dumps (.obj ms2) ++ ['\n'] ∧ loads out = some (.obj ms2) := by
  unfold update_json_version at h
  cases hl : loads content with
  | none =>
    rw [hl] at h
    simp at h
  | some d =>
    rw [hl] at h
    simp only [Option.some_bind] at h
    cases hu : update_json_doc d v with
    | none =>
      rw [hu] at h
      simp at h
    | some d2 =>
      rw [hu] at h
      simp only [Option.map_some'] at h
      cases d with
      | obj ms =>
        obtain ⟨ms2, heq, _, _⟩ := update_json_doc_obj ms v
        rw [heq] at hu
        have hd2 : d2 = .obj ms2 := by
          injection hu with h1
          exact h1.symm
        subst hd2
        have hout : out = dumps (.obj ms2) ++ ['\n'] := by
          injection h with h1
          exact h1.symm
        exact ⟨ms, ms2, rfl, heq, hout, by rw [hout]; exact loads_dumps _⟩
      | null => simp [update_json_doc] at hu
      | boolean b => simp [update_json_doc] at hu
      | num i => simp [update_json_doc] at hu
      | str s0 => simp [update_json_doc] at hu
      | arr its => simp [update_json_doc] at hu

/-- The version fields of the file written by `update_json_version`. -/
theorem update_json_version_fields {content v out : List Char}
    (h : update_json_version content v = some out) :
    topVersion out = some (.str v) ∧ (∀ x, rootPkgVersion out = some x → x = .str v) := by
  obtain ⟨ms, ms2, hl, hu, hout, hload⟩ := update_json_version_inv h
  obtain ⟨ms2', heq, hver, hpkg⟩ := update_json_doc_obj ms v
  have hmm : ms2 = ms2' := by
    rw [heq] at hu
    injection hu with h1
    injection h1 with h2
    exact h2.symm
  subst hmm
  constructor
  · simp only [topVersion, hload]
    exact hver
  · intro x hx
    rw [rootPkgVersion, hload] at hx
    cases hpk : jLookup ms2 pkgKey with
    | none => simp [hpk] at hx
    | some w =>
      cases w with
      | obj pkgs =>
        cases hrt : jLookup pkgs ([] : List Char) with
        | none => simp [hpk, hrt] at hx
        | some w2 =>
          cases w2 with
          | obj root =>
            simp only [hpk, hrt, hpkg pkgs root hpk hrt] at hx
            injection hx with h1
            exact h1.symm
          | null => simp [hpk, hrt] at hx
          | boolean b => simp [hpk, hrt] at hx
          | num i => simp [hpk, hrt] at hx
          | str s0 => simp [hpk, hrt] at hx
          | arr its => simp [hpk, hrt] at hx
      | null => simp [hpk] at hx
      | boolean b => simp [hpk] at hx
      | num i => simp [hpk] at hx
      | str s0 => simp [hpk] at hx
      | arr its => simp [hpk] at hx

/-- Idempotence of `update_json_version` on file content. -/
theorem update_json_version_idem_aux {content v out : List Char}
    (h : update_json_version content v = some out) :
    update_json_version out v = some out := by
  obtain ⟨ms, ms2, hl, hu, hout, hload⟩ := update_json_version_inv h
  have hidem := update_json_doc_idem ms ms2 v hu
  rw [update_json_version, hload, Option.some_bind, hidem, Option.map_some', ← hout]

theorem update_tauri_doc_eq (ms : JMembers) (v : List Char) :
    update_tauri_doc (.obj ms) v = some (.obj (setKey ms verKey (.str v))) := rfl

/-- Successful runs of `update_tauri_conf` set the top-level version and
write the two-space-indented serialization. -/
theorem update_tauri_conf_inv {content v out : List Char}
    (h : update_tauri_conf content v = some out) :
    ∃ ms, loads content = some (.obj ms) ∧
      out = dumps (.obj (setKey ms verKey (.str v))) ++ ['\n'] ∧
      loads out = some (.obj (setKey ms verKey (.str v))) ∧
      topVersion out = some (.str v) := by
  unfold update_tauri_conf at h
  cases hl : loads content with
  | none =>
    rw [hl] at h
    simp at h
  | some d =>
    rw [hl] at h
    simp only [Option.some_bind] at h
    cases d with
    | obj ms =>
      rw [update_tauri_doc_eq, Option.map_some'] at h
      have hout : out = dumps (.obj (setKey ms verKey (.str v))) ++ ['\n'] := by
        injection h with h1
        exact h1.symm
      refine ⟨ms, rfl, hout, by rw [hout]; exact loads_dumps _, ?_⟩
      rw [hout]
      simp only [topVersion, loads_dumps]
      exact lookup_setKey_self ms verKey (.str v)
    | null => simp [update_tauri_doc] at h
    | boolean b => simp [update_tauri_doc] at h
    | num i => simp [update_tauri_doc] at h
    | str s0 => simp [update_tauri_doc] at h
    | arr its => simp [update_tauri_doc] at h

/-! Facts about `prompt` and Python `strip`. -/

theorem rdropWhile_append_rtakeWhile (p : Char → Bool) (l : List Char) :
    l.rdropWhile p ++ l.rtakeWhile p = l := by
  rw [List.rdropWhile, List.rtakeWhile, ← List.reverse_append, List.takeWhile_append_dropWhile,
    List.reverse_reverse]

theorem pyStrip_eq_nil_iff (s : List Char) :
    pyStrip s = [] ↔ ∀ c ∈ s, isPySpace c = true := by
  rw [pyStrip, List.rdropWhile_eq_nil_iff]
  constructor
  · intro h c hc
    conv at hc => rw [← List.takeWhile_append_dropWhile (p := isPySpace) (l := s)]
    rcases List.mem_append.mp hc with h1 | h2
    · exact List.mem_takeWhile_imp h1
    · exact h c h2
  · intro h c hc
    exact h c ((List.dropWhile_sublist _).mem hc)

theorem pyStrip_decomp (s : List Char) :
    ∃ pre post, s = pre ++ pyStrip s ++ post ∧
      (∀ c ∈ pre, isPySpace c = true) ∧ (∀ c ∈ post, isPySpace c = true) := by
  refine ⟨s.takeWhile isPySpace, (s.dropWhile isPySpace).rtakeWhile isPySpace, ?_, ?_, ?_⟩
  · rw [pyStrip, List.append_assoc, rdropWhile_append_rtakeWhile,
      List.takeWhile_append_dropWhile]
  · intro c hc
    exact List.mem_takeWhile_imp hc
  · intro c hc
    exact List.mem_rtakeWhile_imp hc

/-! Facts about the Cargo.toml line replacement. -/

theorem cargoReplaceLines_eq (v : List Char) (lines : List (List Char)) :
    cargoReplaceLines v lines =
      (lines.map (fun l => if versionLineMatches l then versionLine v else l),
        lines.any versionLineMatches) := by
  induction lines with
  | nil => rfl
  | cons l ls ih =>
    by_cases h : versionLineMatches l = true
    · simp [cargoReplaceLines, ih, h]
    · simp [cargoReplaceLines, ih, h]

theorem intercalate_cons_cons (sep a b : List Char) (l : List (List Char)) :
    List.intercalate sep (a :: b :: l) = a ++ sep ++ List.intercalate sep (b :: l) := by
  simp [List.intercalate, List.intersperse]

theorem intercalate_singleton (sep a : List Char) :
    List.intercalate sep [a] = a := by
  simp [List.intercalate, List.intersperse]

theorem splitlinesAux_line (l : List Char) : ∀ cur rest, (∀ c ∈ l, ¬ c = '\n') →
    splitlinesAux cur (l ++ '\n' :: rest) = (cur.reverse ++ l) :: splitlinesAux [] rest := by
  induction l with
  | nil =>
    intro cur rest _
    simp [splitlinesAux]
  | cons c l' ih =>
    intro cur rest h
    have hc : ¬ c = '\n' := h c (by simp)
    rw [List.cons_append, splitlinesAux, if_neg hc, ih (c :: cur) rest (fun x hx => h x (by simp [hx]))]
    simp

theorem splitlines_join (ls : List (List Char)) (h1 : ls ≠ [])
    (h2 : ∀ l ∈ ls, ∀ c ∈ l, ¬ c = '\n') :
    splitlines (List.intercalate ['\n'] ls ++ ['\n']) = ls := by
  induction ls with
  | nil => exact absurd rfl h1
  | cons l ls' ih =>
    cases ls' with
    | nil =>
      rw [intercalate_singleton, splitlines, show (['\n'] : List Char) = '\n' :: [] from rfl,
        splitlinesAux_line l [] [] (h2 l (by simp))]
      simp [splitlinesAux]
    | cons b l2 =>
      rw [intercalate_cons_cons, List.append_assoc, List.append_assoc, splitlines,
        List.singleton_append, splitlinesAux_line l _ _ (h2 l (by simp))]
      have := ih (by simp) (fun l3 h3 c hc => h2 l3 (by simp [h3]) c hc)
      rw [splitlines] at this
      rw [this]
      simp

theorem splitlinesAux_no_nl : ∀ (s cur : List Char), (∀ c ∈ cur, ¬ c = '\n') →
    ∀ l ∈ splitlinesAux cur s, ∀ c ∈ l, ¬ c = '\n' := by
  intro s
  induction s with
  | nil =>
    intro cur h l hl
    rw [splitlinesAux] at hl
    by_cases hc : cur = []
    · simp [hc] at hl
    · simp [hc] at hl
      subst hl
      intro c hcm
      exact h c (by simpa using hcm)
  | cons c0 s' ih =>
    intro cur h l hl
    rw [splitlinesAux] at hl
    by_cases hc : c0 = '\n'
    · rw [if_pos hc] at hl
      rcases List.mem_cons.mp hl with rfl | hl2
      · intro c hcm
        exact h c (by simpa using hcm)
      · exact ih [] (by simp) l hl2
    · rw [if_neg hc] at hl
      exact ih (c0 :: cur) (by
        intro x hx
        rcases List.mem_cons.mp hx with rfl | hx2
        · exact hc
        · exact h x hx2) l hl

theorem splitlines_no_nl (s : List Char) : ∀ l ∈ splitlines s, ∀ c ∈ l, ¬ c = '\n' :=
  splitlinesAux_no_nl s [] (by simp)

theorem versionLine_no_nl {v : List Char} (hv : ∀ c ∈ v, ¬ c = '\n') :
    ∀ c ∈ versionLine v, ¬ c = '\n' := by
  intro c hc
  rw [versionLine] at hc
  rcases List.mem_append.mp hc with h1 | h2
  · rcases List.mem_append.mp h1 with h3 | h4
    · have hall : ∀ x ∈ ['v', 'e', 'r', 's', 'i', 'o', 'n', ' ', '=', ' ', '\"'], ¬ x = '\n' := by decide
      exact hall c h3
    · exact hv c h4
  · have hall : ∀ x ∈ ['\"'], ¬ x = '\n' := by decide
    exact hall c h2

theorem update_cargo_version_inv {content v out : List Char}
    (h : update_cargo_version content v = some out) :
    out = List.intercalate ['\n'] ((splitlines content).map
        (fun l => if versionLineMatches l then versionLine v else l)) ++ ['\n'] ∧
      (splitlines content).any versionLineMatches = true := by
  unfold update_cargo_version at h
  rw [cargoReplaceLines_eq] at h
  by_cases ha : (splitlines content).any versionLineMatches = true
  · simp only [ha, if_true, ite_true] at h
    refine ⟨?_, ha⟩
    injection h with h1
    exact h1.symm
  · simp only [eq_false (fun hh => ha hh), if_false, ite_false] at h
    cases h

/-- Every matching line is replaced and the output splits back into the
replaced line list. -/
theorem update_cargo_version_splitlines {content v out : List Char}
    (hv : ∀ c ∈ v, ¬ c = '\n') (h : update_cargo_version content v = some out) :
    splitlines out = (splitlines content).map
        (fun l => if versionLineMatches l then versionLine v else l) ∧
      (splitlines content).any versionLineMatches = true := by
  obtain ⟨hout, hany⟩ := update_cargo_version_inv h
  refine ⟨?_, hany⟩
  rw [hout]
  apply splitlines_join
  · intro hnil
    rw [List.map_eq_nil_iff] at hnil
    rw [hnil] at hany
    cases hany
  · intro l hl
    rcases List.mem_map.mp hl with ⟨a, ha, rfl⟩
    by_cases hm : versionLineMatches a = true
    · simp only [hm, if_true, ite_true]
      exact versionLine_no_nl hv
    · simp only [hm, if_false, ite_false]
      exact splitlines_no_nl content a ha

/-! Facts about the releaseBody replacement. -/

theorem rbReplaceLines_eq (esc : List Char) (lines : List (List Char)) :
    rbReplaceLines esc lines =
      (lines.map (fun l => if isRBLine l then mkRBLine l esc else l), lines.any isRBLine) := by
  induction lines with
  | nil => rfl
  | cons l ls ih =>
    by_cases h : isRBLine l = true
    · simp [rbReplaceLines, ih, h]
    · simp [rbReplaceLines, ih, h]

theorem update_release_body_none_iff (content body : List Char) :
    update_release_body content body = none ↔
      ∀ l ∈ splitLinesKeep content, isRBLine l = false := by
  simp only [update_release_body, rbReplaceLines_eq]
  by_cases ha : (splitLinesKeep content).any isRBLine = true
  · simp only [ha, if_true, ite_true]
    constructor
    · intro hh
      cases hh
    · intro hall
      rcases List.any_eq_true.mp ha with ⟨l, hl, hrb⟩
      rw [hall l hl] at hrb
      cases hrb
  · simp only [eq_false (fun hh => ha hh), if_false, ite_false]
    constructor
    · intro _ l hl
      have := List.any_eq_false.mp (by simpa using ha) l hl
      simpa using this
    · intro _
      trivial

theorem update_release_body_some_eq {content body : List Char}
    (ha : (splitLinesKeep content).any isRBLine = true) :
    update_release_body content body =
      some (joinAll ((splitLinesKeep content).map
        (fun l => if isRBLine l then mkRBLine l (escape_for_yaml body) else l))) := by
  simp only [update_release_body, rbReplaceLines_eq]
  simp only [ha, if_true, ite_true]

theorem escSeq_ascii (s : List Char) : ∀ k ∈ escSeq s, 32 ≤ k.toNat ∧ k.toNat ≤ 126 := by
  induction s with
  | nil => intro k hk; cases hk
  | cons c cs ih =>
    intro k hk
    rw [escSeq] at hk
    rcases List.mem_append.mp hk with h1 | h2
    · exact escChar_ascii c k h1
    · exact ih k h2

/-- The escaped release body contains no newline and no carriage return: the
written `releaseBody:` line stays a single line. -/
theorem escape_for_yaml_no_nl (body : List Char) :
    ∀ c ∈ escape_for_yaml body, ¬ c = '\n' ∧ ¬ c = '\r' := by
  intro c hc
  rw [escape_for_yaml, strLit] at hc
  rcases List.mem_cons.mp hc with rfl | h1
  · exact ⟨by decide, by decide⟩
  · rcases List.mem_append.mp h1 with h2 | h3
    · have := escSeq_ascii body c h2
      constructor
      · intro e
        subst e
        revert this
        decide
      · intro e
        subst e
        revert this
        decide
    · simp at h3
      subst h3
      exact ⟨by decide, by decide⟩

theorem splitLinesKeepAux_line (l : List Char) (h : ∀ c ∈ l, ¬ c = '\n') :
    ∀ cur, splitLinesKeepAux cur (l ++ ['\n']) = [(cur.reverse ++ l) ++ ['\n']] := by
  induction l with
  | nil =>
    intro cur
    simp [splitLinesKeepAux]
  | cons c l' ih =>
    intro cur
    have hc : ¬ c = '\n' := h c (by simp)
    rw [List.cons_append, splitLinesKeepAux, if_neg hc,
      ih (fun x hx => h x (by simp [hx])) (c :: cur)]
    simp

/-- A newline-free payload followed by a newline is exactly one kept line. -/
theorem splitLinesKeep_single (l : List Char) (h : ∀ c ∈ l, ¬ c = '\n') :
    splitLinesKeep (l ++ ['\n']) = [l ++ ['\n']] := by
  rw [splitLinesKeep, splitLinesKeepAux_line l h []]
  simp

/-! Facts about `prompt` and the main sequence. -/

theorem mem_pyStrip {c : Char} {s : List Char} (h : c ∈ pyStrip s) : c ∈ s := by
  rw [pyStrip] at h
  exact (List.dropWhile_sublist _).mem ((List.rdropWhile_prefix _ _).sublist.mem h)

theorem prompt_eq_some {input v : List Char} (h : prompt input = some v) :
    v = pyStrip input ∧ pyStrip input ≠ [] := by
  by_cases he : pyStrip input = []
  · simp only [prompt, he, if_true, ite_true] at h
    cases h
  · simp only [prompt, he, if_false, ite_false, Option.some.injEq] at h
    exact ⟨h.symm, he⟩

/-- Inversion of a successful run of `main`: every step succeeded and the
final file contents are the five written outputs. -/
theorem mainRun_inv {st st' : Files} {vIn bIn : List Char}
    (h : mainRun st vIn bIn = some st') :
    ∃ cv v b pj pl tc cg rwc,
      get_current_version st.package_json = some cv ∧
      prompt vIn = some v ∧
      prompt bIn = some b ∧
      update_json_version st.package_json v = some pj ∧
      update_json_version st.package_lock v = some pl ∧
      update_tauri_conf st.tauri_conf v = some tc ∧
      update_cargo_version st.cargo_toml v = some cg ∧
      update_release_body st.release_workflow b = some rwc ∧
      st' = ⟨pj, pl, tc, cg, rwc⟩ := by
  simp only [mainRun] at h
  cases h1 : get_current_version st.package_json with
  | none => simp only [mainSteps, h1] at h; simp at h
  | some cv =>
  cases h2 : prompt vIn with
  | none => simp only [mainSteps, h1, h2] at h; simp at h
  | some v =>
  cases h3 : prompt bIn with
  | none => simp only [mainSteps, h1, h2, h3] at h; simp at h
  | some b =>
  cases h4 : update_json_version st.package_json v with
  | none => simp only [mainSteps, h1, h2, h3, h4] at h; simp at h
  | some pj =>
  cases h5 : update_json_version st.package_lock v with
  | none => simp only [mainSteps, h1, h2, h3, h4, h5] at h; simp at h
  | some pl =>
  cases h6 : update_tauri_conf st.tauri_conf v with
  | none => simp only [mainSteps, h1, h2, h3, h4, h5, h6] at h; simp at h
  | some tc =>
  cases h7 : update_cargo_version st.cargo_toml v with
  | none => simp only [mainSteps, h1, h2, h3, h4, h5, h6, h7] at h; simp at h
  | some cg =>
  cases h8 : update_release_body st.release_workflow b with
  | none => simp only [mainSteps, h1, h2, h3, h4, h5, h6, h7, h8] at h; simp at h
  | some rwc =>
  refine ⟨cv, v, b, pj, pl, tc, cg, rwc, rfl, rfl, rfl, h4, h5, h6, h7, h8, ?_⟩
  simp only [mainSteps, h1, h2, h3, h4, h5, h6, h7, h8, if_true, ite_true] at h
  injection h with h9
  exact h9.symm

theorem mkRBLine_split (l esc : List Char) :
    mkRBLine l esc =
      (nSpaces (l.length - (pyLstrip l).length) ++ rbKey ++ (' ' :: esc)) ++ ['\n'] := by
  simp [mkRBLine, List.append_assoc]

theorem mkRBLine_no_nl_body (l body : List Char) :
    ∀ c ∈ nSpaces (l.length - (pyLstrip l).length) ++ rbKey ++
        (' ' :: escape_for_yaml body), ¬ c = '\n' := by
  intro c hc
  rcases List.mem_append.mp hc with h1 | h2
  · rcases List.mem_append.mp h1 with h3 | h4
    · rw [List.eq_of_mem_replicate h3]
      decide
    · have hall : ∀ x ∈ rbKey, ¬ x = '\n' := by decide
      exact hall c h4
  · rcases List.mem_cons.mp h2 with rfl | h5
    · decide
    · exact (escape_for_yaml_no_nl body c h5).1

/-- The replacement line written for a `releaseBody:` line is a single kept
line. -/
theorem splitLinesKeep_mkRBLine (l body : List Char) :
    splitLinesKeep (mkRBLine l (escape_for_yaml body)) =
      [mkRBLine l (escape_for_yaml body)] := by
  rw [mkRBLine_split, splitLinesKeep_single _ (mkRBLine_no_nl_body l body)]

theorem count_replaced (v : List Char) (lines : List (List Char)) :
    lines.countP versionLineMatches ≤
      (lines.map (fun l => if versionLineMatches l then versionLine v else l)).count
        (versionLine v) := by
  induction lines with
  | nil => simp
  | cons l ls ih =>
    by_cases h : versionLineMatches l = true
    · simp only [List.countP_cons, List.map_cons, List.count_cons]
      rw [if_pos h, if_pos h, if_pos (beq_self_eq_true (versionLine v))]
      omega
    · simp only [List.countP_cons, List.map_cons, List.count_cons]
      rw [if_neg h, if_neg h]
      by_cases he : (l == versionLine v) = true
      · rw [if_pos he]
        omega
      · rw [if_neg he]
        omega

/-! The claims. -/

/-- C1: for every manifest whose top-level `"version"` field is a non-empty
string and every non-empty operator-supplied version `v`, after `main`
completes successfully every target file contains `v` in its version
field(s): the three JSON files (`package.json`, `package-lock.json`,
`tauri.conf.json`) have top-level `"version"` equal to `v`, and `Cargo.toml`
contains the line `version = "v"`.  The hypothesis that the manifest's
version field is a usable non-empty string is part of `mainRun` succeeding;
operator input comes from `input()` and so carries no newline. -/
theorem claim_C1 {st st' : Files} {vIn bIn v : List Char}
    (hrun : mainRun st vIn bIn = some st')
    (hv : prompt vIn = some v)
    (hnl : ∀ c ∈ vIn, ¬ c = '\n') :
    topVersion st'.package_json = some (.str v) ∧
    topVersion st'.package_lock = some (.str v) ∧
    topVersion st'.tauri_conf = some (.str v) ∧
    versionLine v ∈ splitlines st'.cargo_toml := by
  obtain ⟨cv, v2, b, pj, pl, tc, cg, rwc, h1, h2, h3, h4, h5, h6, h7, h8, h9⟩ :=
    mainRun_inv hrun
  rw [hv] at h2
  injection h2 with h2
  subst h2
  have hvnl : ∀ c ∈ v, ¬ c = '\n' := by
    intro c hc
    have hvp := (prompt_eq_some hv).1
    exact hnl c (mem_pyStrip (hvp ▸ hc))
  subst h9
  refine ⟨(update_json_version_fields h4).1, (update_json_version_fields h5).1, ?_, ?_⟩
  · obtain ⟨ms, _, _, _, htop⟩ := update_tauri_conf_inv h6
    exact htop
  · obtain ⟨hsplit, hany⟩ := update_cargo_version_splitlines hvnl h7
    rw [hsplit]
    rcases List.any_eq_true.mp hany with ⟨l, hl, hm⟩
    exact List.mem_map.mpr ⟨l, hl, by rw [if_pos hm]⟩

theorem claim_C1_witness :
    topVersion (mainSteps ⟨("\x7b\x22version\x22: \x221.0.0\x22\x7d").toList,
        ("\x7b\x7d").toList, ("\x7b\x7d").toList, ("version = \x220\x22\n").toList,
        ("releaseBody: x\n").toList⟩
        (("1.2.3").toList) (("note").toList)).1.package_json =
      some (.str (("1.2.3").toList)) ∧
    topVersion (mainSteps ⟨("\x7b\x22version\x22: \x221.0.0\x22\x7d").toList,
        ("\x7b\x7d").toList, ("\x7b\x7d").toList, ("version = \x220\x22\n").toList,
        ("releaseBody: x\n").toList⟩
        (("1.2.3").toList) (("note").toList)).1.package_lock =
      some (.str (("1.2.3").toList)) ∧
    topVersion (mainSteps ⟨("\x7b\x22version\x22: \x221.0.0\x22\x7d").toList,
        ("\x7b\x7d").toList, ("\x7b\x7d").toList, ("version = \x220\x22\n").toList,
        ("releaseBody: x\n").toList⟩
        (("1.2.3").toList) (("note").toList)).1.tauri_conf =
      some (.str (("1.2.3").toList)) ∧
    versionLine (("1.2.3").toList) ∈
      splitlines (mainSteps ⟨("\x7b\x22version\x22: \x221.0.0\x22\x7d").toList,
        ("\x7b\x7d").toList, ("\x7b\x7d").toList, ("version = \x220\x22\n").toList,
        ("releaseBody: x\n").toList⟩
        (("1.2.3").toList) (("note").toList)).1.cargo_toml :=
  @claim_C1 ⟨("\x7b\x22version\x22: \x221.0.0\x22\x7d").toList,
      ("\x7b\x7d").toList, ("\x7b\x7d").toList, ("version = \x220\x22\n").toList,
      ("releaseBody: x\n").toList⟩
    (mainSteps ⟨("\x7b\x22version\x22: \x221.0.0\x22\x7d").toList,
      ("\x7b\x7d").toList, ("\x7b\x7d").toList, ("version = \x220\x22\n").toList,
      ("releaseBody: x\n").toList⟩
      (("1.2.3").toList) (("note").toList)).1
    (("1.2.3").toList) (("note").toList) (("1.2.3").toList)
    (by decide) (by decide) (by decide)

/-- C2: on a build-manifest file with no line matching
`version\s*=\s*"..."`, `update_cargo_version` raises `SystemExit` (modelled
as `none`) and the observable run leaves the file content unchanged with no
write. -/
theorem claim_C2 {content v : List Char}
    (h : ∀ l ∈ splitlines content, versionLineMatches l = false) :
    update_cargo_version content v = none ∧
      update_cargo_run content v = (content, false) := by
  have hany : (splitlines content).any versionLineMatches = false := by
    rw [List.any_eq_false]
    intro l hl
    simp [h l hl]
  have hnone : update_cargo_version content v = none := by
    simp [update_cargo_version, cargoReplaceLines_eq, hany]
  refine ⟨hnone, ?_⟩
  rw [update_cargo_run, hnone]

theorem claim_C2_witness :
    update_cargo_version (("name = \x22x\x22\n").toList) ('1' :: []) = none ∧
      update_cargo_run (("name = \x22x\x22\n").toList) ('1' :: []) =
        ((("name = \x22x\x22\n").toList), false) :=
  claim_C2 (by decide)

/-- C3: when the workflow file has a `releaseBody:` line, the operator's
release body — even one containing quotes and newlines — is written as its
JSON-escaped rendering: the written rendering occupies a single line, and
JSON-decoding it yields exactly the original string. -/
theorem claim_C3 {content body : List Char}
    (ha : (splitLinesKeep content).any isRBLine = true) :
    update_release_body content body = some (joinAll ((splitLinesKeep content).map
        (fun l => if isRBLine l then mkRBLine l (escape_for_yaml body) else l))) ∧
    (∀ l, splitLinesKeep (mkRBLine l (escape_for_yaml body)) =
        [mkRBLine l (escape_for_yaml body)]) ∧
    loads (escape_for_yaml body) = some (.str body) := by
  refine ⟨update_release_body_some_eq ha, fun l => splitLinesKeep_mkRBLine l body, ?_⟩
  rw [escape_for_yaml]
  exact loads_strLit body

theorem claim_C3_witness :
    update_release_body (("releaseBody: x\n").toList) ('a' :: '"' :: '\n' :: []) =
      some (joinAll ((splitLinesKeep (("releaseBody: x\n").toList)).map
        (fun l => if isRBLine l then
            mkRBLine l (escape_for_yaml ('a' :: '"' :: '\n' :: [])) else l))) ∧
    (∀ l, splitLinesKeep (mkRBLine l (escape_for_yaml ('a' :: '"' :: '\n' :: []))) =
        [mkRBLine l (escape_for_yaml ('a' :: '"' :: '\n' :: []))]) ∧
    loads (escape_for_yaml ('a' :: '"' :: '\n' :: [])) =
      some (.str ('a' :: '"' :: '\n' :: [])) :=
  claim_C3 (by decide)

/-- C4: every response the test server sends finalizes its header block
through the overridden `end_headers`, which appends
`Cache-Control: no-cache, no-store, must-revalidate` to whatever headers were
already emitted — so the header is part of every response. -/
theorem claim_C4 (sent : List (List Char × List Char)) :
    cacheControlHeader ∈ end_headers sent := by
  rw [end_headers]
  exact List.mem_append_right _ (by decide)

/-- C5 (corrected): `update_release_body` replaces the value on every line
whose stripped content begins with `releaseBody:` by the JSON-escaped
rendering of the operator text, and fails (`SystemExit`, modelled `none`)
exactly when no such line exists.  However the original leading indentation
is not preserved character-for-character: the replacement line renders the
leading-whitespace UNIT COUNT as spaces
(`" " * (len(line) - len(line.lstrip()))`), so e.g. a tab of indentation
becomes a single space (see the counterexample). -/
theorem claim_C5 (content body : List Char) :
    (update_release_body content body = none ↔
      ∀ l ∈ splitLinesKeep content, isRBLine l = false) ∧
    ((splitLinesKeep content).any isRBLine = true →
      update_release_body content body = some (joinAll ((splitLinesKeep content).map
        (fun l => if isRBLine l then
            nSpaces (l.length - (pyLstrip l).length) ++ rbKey ++
              (' ' :: escape_for_yaml body) ++ ['\n']
          else l)))) := by
  refine ⟨update_release_body_none_iff content body, fun ha => ?_⟩
  have h := @update_release_body_some_eq content body ha
  simpa only [mkRBLine] using h

theorem claim_C5_witness :
    update_release_body (("  releaseBody: x\n").toList) ('b' :: []) =
      some (joinAll ((splitLinesKeep (("  releaseBody: x\n").toList)).map
        (fun l => if isRBLine l then
            nSpaces (l.length - (pyLstrip l).length) ++ rbKey ++
              (' ' :: escape_for_yaml ('b' :: [])) ++ ['\n']
          else l))) :=
  (claim_C5 (("  releaseBody: x\n").toList) ('b' :: [])).2 (by decide)

/-- C5, counterexample to the original wording: a tab-indented
`releaseBody:` line is rewritten with a single space of indentation, so the
line's original leading indentation (one tab) is not preserved. -/
theorem claim_C5_counterexample :
    update_release_body ('\t' :: (("releaseBody: a\n").toList)) ('b' :: []) =
      some (' ' :: (("releaseBody: \x22b\x22\n").toList)) ∧
    List.takeWhile isPySpace ('\t' :: (("releaseBody: a\n").toList)) = ['\t'] ∧
    List.takeWhile isPySpace (' ' :: (("releaseBody: \x22b\x22\n").toList)) = [' '] := by
  decide

/-- C6 (corrected): `update_json_version` (used for `package.json` and
`package-lock.json`) parses the document, sets the top-level `"version"` and
— whenever the nested chain `packages[""]` is an object — also that object's
`"version"`, then rewrites with two-space indentation.  `update_tauri_conf`
(used for `tauri.conf.json`), contrary to the claim, sets ONLY the top-level
`"version"`: a nested `packages[""]["version"]` entry is left untouched (see
the counterexample). -/
theorem claim_C6 {content v out : List Char} :
    (update_json_version content v = some out →
      topVersion out = some (.str v) ∧
        ∀ x, rootPkgVersion out = some x → x = .str v) ∧
    (update_tauri_conf content v = some out →
      topVersion out = some (.str v) ∧
        ∃ ms, loads content = some (.obj ms) ∧
          out = dumps (.obj (setKey ms verKey (.str v))) ++ ['\n']) := by
  refine ⟨fun h => update_json_version_fields h, fun h => ?_⟩
  obtain ⟨ms, hl, hout, _, htop⟩ := update_tauri_conf_inv h
  exact ⟨htop, ms, hl, hout⟩

theorem claim_C6_witness :
    topVersion (("\x7b\n  \x22version\x22: \x221\x22\n\x7d\n").toList) =
      some (.str ('1' :: [])) :=
  (claim_C6.1 (by decide : update_json_version (("\x7b\x7d").toList) ('1' :: []) =
    some (("\x7b\n  \x22version\x22: \x221\x22\n\x7d\n").toList))).1

/-- C6, counterexample to the original wording: on a `tauri.conf.json`
document carrying a nested root-package entry, `update_tauri_conf` succeeds
but leaves `packages[""]["version"]` at its old value `"0"` instead of the
new version `"1"`. -/
theorem claim_C6_counterexample :
    (update_tauri_conf
        (("\x7b\x22packages\x22: \x7b\x22\x22: \x7b\x22version\x22: \x220\x22\x7d\x7d\x7d").toList)
        ('1' :: [])).map rootPkgVersion = some (some (.str ('0' :: []))) ∧
    ¬ JVal.str ('0' :: []) = .str ('1' :: []) := by
  decide

/-- C7: `main` neither retries nor rolls back.  Complete inversion of every
failing run: either the run stopped before any file was written
(`st2 = st` — a failed precondition, prompt, or the very first update), or it
failed at a later file update — and then the files updated earlier in the
sequence are left exactly in their newly written state while every later file
keeps its pre-run content; nothing is restored. -/
theorem claim_C7 {st st2 : Files} {vIn bIn : List Char}
    (h : mainSteps st vIn bIn = (st2, false)) :
    st2 = st ∨
    (∃ v b pj, prompt vIn = some v ∧ prompt bIn = some b ∧
      update_json_version st.package_json v = some pj ∧
      ((update_json_version st.package_lock v = none ∧
          st2 = ⟨pj, st.package_lock, st.tauri_conf, st.cargo_toml,
            st.release_workflow⟩) ∨
        ∃ pl, update_json_version st.package_lock v = some pl ∧
          ((update_tauri_conf st.tauri_conf v = none ∧
              st2 = ⟨pj, pl, st.tauri_conf, st.cargo_toml, st.release_workflow⟩) ∨
            ∃ tc, update_tauri_conf st.tauri_conf v = some tc ∧
              ((update_cargo_version st.cargo_toml v = none ∧
                  st2 = ⟨pj, pl, tc, st.cargo_toml, st.release_workflow⟩) ∨
                ∃ cg, update_cargo_version st.cargo_toml v = some cg ∧
                  update_release_body st.release_workflow b = none ∧
                  st2 = ⟨pj, pl, tc, cg, st.release_workflow⟩)))) := by
  cases h1 : get_current_version st.package_json with
  | none =>
    simp only [mainSteps, h1] at h
    injection h with ha hb
    exact Or.inl ha.symm
  | some cv =>
  cases h2 : prompt vIn with
  | none =>
    simp only [mainSteps, h1, h2] at h
    injection h with ha hb
    exact Or.inl ha.symm
  | some v =>
  cases h3 : prompt bIn with
  | none =>
    simp only [mainSteps, h1, h2, h3] at h
    injection h with ha hb
    exact Or.inl ha.symm
  | some b =>
  cases h4 : update_json_version st.package_json v with
  | none =>
    simp only [mainSteps, h1, h2, h3, h4] at h
    injection h with ha hb
    exact Or.inl ha.symm
  | some pj =>
  cases h5 : update_json_version st.package_lock v with
  | none =>
    simp only [mainSteps, h1, h2, h3, h4, h5] at h
    injection h with ha hb
    exact Or.inr ⟨v, b, pj, rfl, rfl, h4, Or.inl ⟨h5, ha.symm⟩⟩
  | some pl =>
  cases h6 : update_tauri_conf st.tauri_conf v with
  | none =>
    simp only [mainSteps, h1, h2, h3, h4, h5, h6] at h
    injection h with ha hb
    exact Or.inr ⟨v, b, pj, rfl, rfl, h4, Or.inr ⟨pl, h5, Or.inl ⟨h6, ha.symm⟩⟩⟩
  | some tc =>
  cases h7 : update_cargo_version st.cargo_toml v with
  | none =>
    simp only [mainSteps, h1, h2, h3, h4, h5, h6, h7] at h
    injection h with ha hb
    exact Or.inr ⟨v, b, pj, rfl, rfl, h4,
      Or.inr ⟨pl, h5, Or.inr ⟨tc, h6, Or.inl ⟨h7, ha.symm⟩⟩⟩⟩
  | some cg =>
  cases h8 : update_release_body st.release_workflow b with
  | none =>
    simp only [mainSteps, h1, h2, h3, h4, h5, h6, h7, h8] at h
    injection h with ha hb
    exact Or.inr ⟨v, b, pj, rfl, rfl, h4,
      Or.inr ⟨pl, h5, Or.inr ⟨tc, h6, Or.inr ⟨cg, h7, h8, ha.symm⟩⟩⟩⟩
  | some rwc =>
    simp only [mainSteps, h1, h2, h3, h4, h5, h6, h7, h8] at h
    injection h with ha hb
    exact absurd hb (by decide)

theorem claim_C7_witness :
    (⟨("\x7b\n  \x22version\x22: \x221.2.3\x22\n\x7d\n").toList,
        ("\x7b\n  \x22version\x22: \x221.2.3\x22\n\x7d\n").toList,
        ("\x7b\n  \x22version\x22: \x221.2.3\x22\n\x7d\n").toList,
        ("version = \x221.2.3\x22\n").toList, ("on: push\n").toList⟩ : Files) =
      ⟨("\x7b\x22version\x22: \x221.0.0\x22\x7d").toList, ("\x7b\x7d").toList,
        ("\x7b\x7d").toList, ("version = \x220\x22\n").toList, ("on: push\n").toList⟩ ∨
    (∃ v b pj, prompt (("1.2.3").toList) = some v ∧ prompt (("note").toList) = some b ∧
      update_json_version ("\x7b\x22version\x22: \x221.0.0\x22\x7d").toList v = some pj ∧
      ((update_json_version ("\x7b\x7d").toList v = none ∧
          (⟨("\x7b\n  \x22version\x22: \x221.2.3\x22\n\x7d\n").toList,
        ("\x7b\n  \x22version\x22: \x221.2.3\x22\n\x7d\n").toList,
        ("\x7b\n  \x22version\x22: \x221.2.3\x22\n\x7d\n").toList,
        ("version = \x221.2.3\x22\n").toList, ("on: push\n").toList⟩ : Files) =
            ⟨pj, ("\x7b\x7d").toList, ("\x7b\x7d").toList, ("version = \x220\x22\n").toList, ("on: push\n").toList⟩) ∨
        ∃ pl, update_json_version ("\x7b\x7d").toList v = some pl ∧
          ((update_tauri_conf ("\x7b\x7d").toList v = none ∧
              (⟨("\x7b\n  \x22version\x22: \x221.2.3\x22\n\x7d\n").toList,
        ("\x7b\n  \x22version\x22: \x221.2.3\x22\n\x7d\n").toList,
        ("\x7b\n  \x22version\x22: \x221.2.3\x22\n\x7d\n").toList,
        ("version = \x221.2.3\x22\n").toList, ("on: push\n").toList⟩ : Files) =
                ⟨pj, pl, ("\x7b\x7d").toList, ("version = \x220\x22\n").toList, ("on: push\n").toList⟩) ∨
            ∃ tc, update_tauri_conf ("\x7b\x7d").toList v = some tc ∧
              ((update_cargo_version ("version = \x220\x22\n").toList v = none ∧
                  (⟨("\x7b\n  \x22version\x22: \x221.2.3\x22\n\x7d\n").toList,
        ("\x7b\n  \x22version\x22: \x221.2.3\x22\n\x7d\n").toList,
        ("\x7b\n  \x22version\x22: \x221.2.3\x22\n\x7d\n").toList,
        ("version = \x221.2.3\x22\n").toList, ("on: push\n").toList⟩ : Files) =
                    ⟨pj, pl, tc, ("version = \x220\x22\n").toList, ("on: push\n").toList⟩) ∨
                ∃ cg, update_cargo_version ("version = \x220\x22\n").toList v = some cg ∧
                  update_release_body ("on: push\n").toList b = none ∧
                  (⟨("\x7b\n  \x22version\x22: \x221.2.3\x22\n\x7d\n").toList,
        ("\x7b\n  \x22version\x22: \x221.2.3\x22\n\x7d\n").toList,
        ("\x7b\n  \x22version\x22: \x221.2.3\x22\n\x7d\n").toList,
        ("version = \x221.2.3\x22\n").toList, ("on: push\n").toList⟩ : Files) =
                    ⟨pj, pl, tc, cg, ("on: push\n").toList⟩)))) :=
  @claim_C7 ⟨("\x7b\x22version\x22: \x221.0.0\x22\x7d").toList, ("\x7b\x7d").toList,
      ("\x7b\x7d").toList, ("version = \x220\x22\n").toList, ("on: push\n").toList⟩
    ⟨("\x7b\n  \x22version\x22: \x221.2.3\x22\n\x7d\n").toList,
      ("\x7b\n  \x22version\x22: \x221.2.3\x22\n\x7d\n").toList,
      ("\x7b\n  \x22version\x22: \x221.2.3\x22\n\x7d\n").toList,
      ("version = \x221.2.3\x22\n").toList, ("on: push\n").toList⟩
    (("1.2.3").toList) (("note").toList) (by decide)

/-- C8: `prompt` fails (`SystemExit`, modelled `none`) exactly when the
operator's input is empty or all-whitespace; otherwise it returns the input
with surrounding whitespace stripped (the returned value is the input minus
a whitespace-only prefix and suffix). -/
theorem claim_C8 (input : List Char) :
    (prompt input = none ↔ ∀ c ∈ input, isPySpace c = true) ∧
    (prompt input = none ∨ prompt input = some (pyStrip input)) ∧
    (∃ pre post, input = pre ++ pyStrip input ++ post ∧
      (∀ c ∈ pre, isPySpace c = true) ∧ (∀ c ∈ post, isPySpace c = true)) := by
  refine ⟨⟨?_, ?_⟩, ?_, pyStrip_decomp input⟩
  · intro h
    by_cases he : pyStrip input = []
    · exact (pyStrip_eq_nil_iff input).mp he
    · simp only [prompt, he, if_false, ite_false] at h
      cases h
  · intro h
    have he : pyStrip input = [] := (pyStrip_eq_nil_iff input).mpr h
    simp only [prompt, he, if_true, ite_true]
  · by_cases he : pyStrip input = []
    · left
      simp only [prompt, he, if_true, ite_true]
    · right
      simp only [prompt, he, if_false, ite_false]

/-- C9: when more than one line of the build manifest matches
`version\s*=\s*"..."`, `update_cargo_version` replaces every matching line —
the output's line list is the input's with each matching line replaced, and
the replacement line occurs more than once. -/
theorem claim_C9 {content v out : List Char}
    (hc : 1 < (splitlines content).countP versionLineMatches)
    (hv : ∀ c ∈ v, ¬ c = '\n')
    (h : update_cargo_version content v = some out) :
    splitlines out = (splitlines content).map
        (fun l => if versionLineMatches l then versionLine v else l) ∧
    1 < (splitlines out).count (versionLine v) := by
  obtain ⟨hs, _⟩ := update_cargo_version_splitlines hv h
  refine ⟨hs, ?_⟩
  rw [hs]
  exact lt_of_lt_of_le hc (count_replaced v (splitlines content))

theorem claim_C9_witness :
    splitlines (("version = \x221\x22\nversion = \x221\x22\n").toList) =
      (splitlines (("version = \x220\x22\nversion = \x229\x22\n").toList)).map
        (fun l => if versionLineMatches l then versionLine ('1' :: []) else l) ∧
    1 < (splitlines (("version = \x221\x22\nversion = \x221\x22\n").toList)).count
        (versionLine ('1' :: [])) :=
  @claim_C9 (("version = \x220\x22\nversion = \x229\x22\n").toList) ('1' :: [])
    (("version = \x221\x22\nversion = \x221\x22\n").toList)
    (by decide) (by decide) (by decide)

/-- C10: `update_json_version` is idempotent on file content — applying it
with the same version to the file it has just written reproduces the very
same bytes. -/
theorem claim_C10 {content v out : List Char}
    (h : update_json_version content v = some out) :
    update_json_version out v = some out :=
  update_json_version_idem_aux h

theorem claim_C10_witness :
    update_json_version (("\x7b\n  \x22version\x22: \x221\x22\n\x7d\n").toList) ('1' :: []) =
      some (("\x7b\n  \x22version\x22: \x221\x22\n\x7d\n").toList) :=
  @claim_C10 (("\x7b\x7d").toList) ('1' :: [])
    (("\x7b\n  \x22version\x22: \x221\x22\n\x7d\n").toList) (by decide)
